import Mathlib

/-!
Verification of `latex_clean.py` (a LaTeX project flattener/cleaner).

The Python source is shallowly embedded over `List Char`: each regex used by
the source is hand-compiled to an executable recursive matcher with the same
matching semantics (leftmost match, greediness/laziness, look-behind), and the
stateful pieces (the recursive merger with its `processed_files` set) are
embedded with explicit state passing plus a fuel parameter.
-/

namespace LatexClean

/-- Python `\s` over ASCII text: space, tab, newline, vertical tab,
form feed, carriage return. -/
def isWs (c : Char) : Bool :=
  c = ' ' || c = '\t' || c = '\n' || c = '\x0b' || c = '\x0c' || c = '\r'

/-- Python `\w` over ASCII text: letters, digits, underscore. -/
def isWordChar (c : Char) : Bool :=
  c.isAlpha || c.isDigit || c = '_'

/-! ## 4.1 Balanced-Delimiter Scanner (`_find_balanced_braces`) -/

/-- Contribution of one character to the brace nesting level
(`brace_level += 1` on `{`, `-= 1` on `}`). -/
def braceDelta (c : Char) : Int :=
  if c = '{' then 1 else if c = '}' then -1 else 0

/-- The loop of `_find_balanced_braces`: walk the characters after the
opening brace carrying `brace_level`; return the offset (into the walked
list) of the character at which the level first reaches `0`. -/
def scanBraces : List Char → Int → Option Nat
  | [], _ => none
  | c :: t, lvl =>
    let lvl' := lvl + braceDelta c
    if lvl' = 0 then some 0 else (scanBraces t lvl').map (· + 1)

/-- `_find_balanced_braces(text, start_index)`: `-1` unless `start_index`
points at `{`; otherwise scan forward with a nesting counter starting at 1
and return the index where it reaches 0, or `-1` if it never does. -/
def findBalancedBraces (text : List Char) (start : Nat) : Int :=
  if text.get? start = some '{' then
    match scanBraces (text.drop (start + 1)) 1 with
    | some k => ((start + 1 + k : Nat) : Int)
    | none => -1
  else -1

/-- Nesting level contributed by the first `n` characters of `l`. -/
def prefSum (l : List Char) (n : Nat) : Int :=
  ((l.take n).map braceDelta).sum

/-- Specification-side notion: within the character list `l` that follows an
opening brace, offset `j` is the exact partner of that brace: the nesting
level (which starts at 1) first returns to 0 at character `j`. -/
def IsPartnerSeg (l : List Char) (j : Nat) : Prop :=
  j < l.length ∧ 1 + prefSum l (j + 1) = 0 ∧ ∀ m, m ≤ j → 0 < 1 + prefSum l m

instance (l : List Char) (j : Nat) : Decidable (IsPartnerSeg l j) := by
  unfold IsPartnerSeg; infer_instance

/-- Specification-side notion: in `text`, index `k` is the matching closing
brace, under correct nesting, of the opening brace at index `i`. -/
def BracePartner (text : List Char) (i k : Nat) : Prop :=
  text.get? i = some '{' ∧ i < k ∧ IsPartnerSeg (text.drop (i + 1)) (k - i - 1)

instance (text : List Char) (i k : Nat) : Decidable (BracePartner text i k) := by
  unfold BracePartner; infer_instance

/-- Specification-side notion: after the opening brace at index `i`, the
nesting level never returns to 0 before the text ends. -/
def NeverRebalances (text : List Char) (i : Nat) : Prop :=
  ∀ m, m ≤ (text.drop (i + 1)).length → 0 < 1 + prefSum (text.drop (i + 1)) m

lemma prefSum_zero (l : List Char) : prefSum l 0 = 0 := rfl

lemma prefSum_cons (c : Char) (t : List Char) (n : Nat) :
    prefSum (c :: t) (n + 1) = braceDelta c + prefSum t n := by
  simp [prefSum, List.take_succ_cons]

lemma braceDelta_ge (c : Char) : (-1 : Int) ≤ braceDelta c := by
  unfold braceDelta
  split
  · omega
  · split <;> omega

/-- Soundness and completeness of the scanning loop with respect to the
prefix-level specification, for any positive starting level. -/
lemma scanBraces_eq_some_iff (l : List Char) (lvl : Int) (hlvl : 0 < lvl) (k : Nat) :
    scanBraces l lvl = some k ↔
      (k < l.length ∧ lvl + prefSum l (k + 1) = 0 ∧ ∀ m, m ≤ k → 0 < lvl + prefSum l m) := by
  induction l generalizing lvl k with
  | nil =>
    constructor
    · intro h; cases h
    · rintro ⟨h, _⟩; simp at h
  | cons c t ih =>
    simp only [scanBraces]
    by_cases h0 : lvl + braceDelta c = 0
    · rw [if_pos h0]
      constructor
      · rintro h
        injection h with h; subst h
        refine ⟨by simp, ?_, ?_⟩
        · rw [prefSum_cons, prefSum_zero]; omega
        · intro m hm
          interval_cases m
          rw [prefSum_zero]; omega
      · rintro ⟨_, hsum, hpos⟩
        rcases k with _ | k
        · rfl
        · exfalso
          have h1 := hpos 1 (by omega)
          rw [prefSum_cons, prefSum_zero] at h1
          omega
    · have hlvl' : 0 < lvl + braceDelta c := by
        have := braceDelta_ge c; omega
      rw [if_neg h0]
      constructor
      · intro h
        rcases Option.map_eq_some'.mp h with ⟨k', hk', rfl⟩
        obtain ⟨hlen, hsum, hpos⟩ := (ih (lvl + braceDelta c) hlvl' k').mp hk'
        refine ⟨by simpa using hlen, ?_, ?_⟩
        · rw [prefSum_cons]; omega
        · intro m hm
          rcases m with _ | m
          · rw [prefSum_zero]; omega
          · rw [prefSum_cons]
            have := hpos m (by omega); omega
      · rintro ⟨hlen, hsum, hpos⟩
        rcases k with _ | k
        · exfalso
          rw [prefSum_cons, prefSum_zero] at hsum
          omega
        · have hrec : scanBraces t (lvl + braceDelta c) = some k := by
            refine (ih (lvl + braceDelta c) hlvl' k).mpr ⟨by simpa using hlen, ?_, ?_⟩
            · rw [prefSum_cons] at hsum; omega
            · intro m hm
              have := hpos (m + 1) (by omega)
              rw [prefSum_cons] at this
              omega
          simp [hrec]

/-- The loop returns `none` exactly when the level never returns to 0. -/
lemma scanBraces_eq_none_iff (l : List Char) (lvl : Int) (hlvl : 0 < lvl) :
    scanBraces l lvl = none ↔ ∀ m, m ≤ l.length → 0 < lvl + prefSum l m := by
  induction l generalizing lvl with
  | nil =>
    constructor
    · intro _ m hm
      simp at hm; subst hm
      rw [prefSum_zero]; omega
    · intro _; rfl
  | cons c t ih =>
    simp only [scanBraces]
    by_cases h0 : lvl + braceDelta c = 0
    · rw [if_pos h0]
      constructor
      · intro h; cases h
      · intro hpos
        have h1 := hpos 1 (by simp)
        rw [prefSum_cons, prefSum_zero] at h1
        omega
    · have hlvl' : 0 < lvl + braceDelta c := by
        have := braceDelta_ge c; omega
      rw [if_neg h0, Option.map_eq_none']
      rw [ih (lvl + braceDelta c) hlvl']
      constructor
      · intro h m hm
        rcases m with _ | m
        · rw [prefSum_zero]; omega
        · rw [prefSum_cons]
          have := h m (by simpa using hm); omega
      · intro h m hm
        have := h (m + 1) (by simpa using Nat.succ_le_succ hm)
        rw [prefSum_cons] at this
        omega

instance (text : List Char) (i : Nat) : Decidable (NeverRebalances text i) := by
  unfold NeverRebalances; infer_instance

/-- Claim C5: for every text and every index pointing at an opening brace
that has a matching closing brace under correct nesting, the scanner
`_find_balanced_braces` returns the offset of that exact partner brace; and
whenever the braces never rebalance before the text ends, it returns the
not-found sentinel `-1`. -/
theorem findBalancedBraces_correct (text : List Char) (i : Nat) :
    (∀ k, BracePartner text i k → findBalancedBraces text i = (k : Int)) ∧
    (text.get? i = some '{' → NeverRebalances text i →
      findBalancedBraces text i = -1) := by
  constructor
  · rintro k ⟨hopen, hik, hpart⟩
    unfold findBalancedBraces
    rw [if_pos hopen]
    have hscan : scanBraces (text.drop (i + 1)) 1 = some (k - i - 1) :=
      (scanBraces_eq_some_iff _ 1 one_pos _).mpr hpart
    rw [hscan]
    have h : i + 1 + (k - i - 1) = k := by omega
    show ((i + 1 + (k - i - 1) : Nat) : Int) = (k : Int)
    exact_mod_cast h
  · intro hopen hnever
    unfold findBalancedBraces
    rw [if_pos hopen]
    have hscan : scanBraces (text.drop (i + 1)) 1 = none :=
      (scanBraces_eq_none_iff _ 1 one_pos).mpr hnever
    rw [hscan]

/-- Witness for C5 at concrete inputs: in the 7-character text consisting of
an outer brace pair enclosing `a`, an inner pair enclosing `b`, and `c`, the
partner of the brace at index 0 is index 6; in a 3-character text with two
opening braces the braces never rebalance. -/
theorem findBalancedBraces_correct_witness :
    findBalancedBraces ("\x7ba\x7bb\x7dc\x7d".data) 0 = 6 ∧
    findBalancedBraces ("\x7ba\x7b".data) 0 = -1 :=
  ⟨(findBalancedBraces_correct ("\x7ba\x7bb\x7dc\x7d".data) 0).1 6 (by decide),
   (findBalancedBraces_correct ("\x7ba\x7b".data) 0).2 (by decide) (by decide)⟩

/-! ## 4.2 Comment Stripper, line comments
(`RE_LINE_COMMENT = (?<!\\)%.*(?:\n|$)`, substituted by the empty string) -/

/-- Scanner for `RE_LINE_COMMENT.sub("", content)`. `prev` is the character
preceding the current position in the original text (`none` at the start),
used for the `(?<!\\)` negative look-behind. The mode flag `inComment`
records that the scanner is inside a match: an unescaped `%` starts a match
that consumes `.*` up to the end of the line and the terminating newline
(or through the end of the text); scanning resumes after the newline. -/
def lineSubAux : Bool → Option Char → List Char → List Char
  | _, _, [] => []
  | true, prev, c :: t =>
    if c = '\n' then lineSubAux false (some '\n') t else lineSubAux true prev t
  | false, prev, c :: t =>
    if c = '%' ∧ prev ≠ some '\\' then lineSubAux true prev t
    else c :: lineSubAux false (some c) t

/-- `RE_LINE_COMMENT.sub("", content)`: remove every line comment whose `%`
is not immediately preceded by a backslash, including the newline that
terminates the commented line. -/
def lineCommentSub (l : List Char) : List Char := lineSubAux false none l

lemma lineSubAux_nil (m : Bool) (prev : Option Char) : lineSubAux m prev [] = [] := by
  cases m <;> rfl

lemma lineSubAux_pct (prev : Option Char) (t : List Char) (h : prev ≠ some '\\') :
    lineSubAux false prev ('%' :: t) = lineSubAux true prev t := by
  simp [lineSubAux, h]

lemma lineSubAux_other (prev : Option Char) (c : Char) (t : List Char)
    (h : ¬(c = '%' ∧ prev ≠ some '\\')) :
    lineSubAux false prev (c :: t) = c :: lineSubAux false (some c) t := by
  simp only [lineSubAux]
  rw [if_neg h]

/-- In comment-skipping mode, a newline-free list is consumed entirely. -/
lemma lineSubAux_skip_all (b : List Char) :
    ∀ (prev : Option Char), '\n' ∉ b → lineSubAux true prev b = [] := by
  induction b with
  | nil => intro prev _; rfl
  | cons c t ih =>
    intro prev hb
    simp only [lineSubAux]
    rw [if_neg (by intro h; exact hb (by simp [h]))]
    exact ih prev (fun h => hb (by simp [h]))

/-- In comment-skipping mode, scanning resumes right after the newline, with
the newline (which was part of the match) removed. -/
lemma lineSubAux_skip_through (b : List Char) :
    ∀ (prev : Option Char) (c : List Char), '\n' ∉ b →
      lineSubAux true prev (b ++ '\n' :: c) = lineSubAux false (some '\n') c := by
  induction b with
  | nil =>
    intro prev c _
    simp [lineSubAux]
  | cons x t ih =>
    intro prev c hb
    simp only [List.cons_append, lineSubAux]
    rw [if_neg (by intro h; exact hb (by simp [h]))]
    exact ih prev c (fun h => hb (by simp [h]))

/-- Scanning from state `prev`, `l` contains no unescaped comment marker. -/
def noUnescapedPct : Option Char → List Char → Bool
  | _, [] => true
  | prev, c :: t => (!(c = '%') || (prev = some '\\')) && noUnescapedPct (some c) t

/-- Scanning from state `prev`, `l` contains an escaped comment marker. -/
def containsEscapedPct : Option Char → List Char → Bool
  | _, [] => false
  | prev, c :: t => ((c = '%') && (prev = some '\\')) || containsEscapedPct (some c) t

/-- The look-behind state after scanning past `l`, starting from `prev`:
the last character of `l`, or `prev` if `l` is empty. -/
def prevAfter : Option Char → List Char → Option Char
  | prev, [] => prev
  | _, c :: t => prevAfter (some c) t

lemma prevAfter_nil (prev : Option Char) : prevAfter prev [] = prev := rfl

lemma prevAfter_cons (prev : Option Char) (c : Char) (t : List Char) :
    prevAfter prev (c :: t) = prevAfter (some c) t := rfl

/-- Core lemma: if `a` contains no unescaped `%` and does not leave a
backslash as the look-behind state, then stripping `a ++ '%' :: b` copies
`a` untouched and enters comment-skipping mode on `b`. -/
lemma lineSubAux_comment (a : List Char) :
    ∀ (prev : Option Char) (b : List Char),
      noUnescapedPct prev a = true →
      prevAfter prev a ≠ some '\\' →
      lineSubAux false prev (a ++ '%' :: b) =
        a ++ lineSubAux true (prevAfter prev a) b := by
  induction a with
  | nil =>
    intro prev b _ hlast
    have hprev : prev ≠ some '\\' := by simpa [prevAfter_nil] using hlast
    rw [List.nil_append, lineSubAux_pct prev b hprev, prevAfter_nil, List.nil_append]
  | cons ch t ih =>
    intro prev b ha hlast
    simp only [noUnescapedPct, Bool.and_eq_true, Bool.or_eq_true] at ha
    obtain ⟨hc, ht⟩ := ha
    rw [prevAfter_cons] at hlast
    by_cases hcp : ch = '%'
    · have hesc : prev = some '\\' := by
        rcases hc with h | h
        · rw [hcp] at h; simp at h
        · simpa using h
      rw [List.cons_append,
        lineSubAux_other prev ch _ (by rintro ⟨_, hne⟩; exact hne hesc),
        ih (some ch) b ht hlast, prevAfter_cons, List.cons_append]
    · rw [List.cons_append,
        lineSubAux_other prev ch _ (by rintro ⟨h1, _⟩; exact hcp h1),
        ih (some ch) b ht hlast, prevAfter_cons, List.cons_append]

/-- Claim C7: for every input line containing an escaped comment marker
followed by an unescaped comment marker, only the content from the unescaped
marker onward is removed: the escaped marker and all text before the
unescaped marker survive, and an escaped marker is never treated as a
comment start. The line is `a ++ '%' :: b`, where `a` (which contains an
escaped marker but no unescaped one, and does not end in a backslash) is the
part before the first unescaped marker and `b` is the rest of the line. -/
theorem lineCommentSub_escaped_then_unescaped (a b : List Char)
    (ha : noUnescapedPct none a = true)
    (hesc : containsEscapedPct none a = true)
    (hlast : prevAfter none a ≠ some '\\')
    (hna : '\n' ∉ a) (hnb : '\n' ∉ b) :
    lineCommentSub (a ++ '%' :: b) = a := by
  unfold lineCommentSub
  rw [lineSubAux_comment a none b ha hlast,
    lineSubAux_skip_all b _ hnb, List.append_nil]

/-- Witness for C7: the line `x\%y%z` is stripped to `x\%y`. -/
theorem lineCommentSub_escaped_then_unescaped_witness :
    lineCommentSub ("x\\%y%z".data) = "x\\%y".data :=
  lineCommentSub_escaped_then_unescaped ("x\\%y".data) ("z".data)
    (by decide) (by decide) (by decide) (by decide) (by decide)

/-- In comment-skipping mode the look-behind state is irrelevant. -/
lemma lineSubAux_skip_indep (l : List Char) :
    ∀ (p q : Option Char), lineSubAux true p l = lineSubAux true q l := by
  induction l with
  | nil => intro p q; rfl
  | cons c t ih =>
    intro p q
    simp only [lineSubAux]
    by_cases hc : c = '\n'
    · rw [if_pos hc, if_pos hc]
    · rw [if_neg hc, if_neg hc]
      exact ih p q

/-- The scanner does not depend on the exact look-behind state as long as it
is not a backslash. -/
lemma lineSubAux_prev_indep (l : List Char) :
    ∀ (p q : Option Char), p ≠ some '\\' → q ≠ some '\\' →
      lineSubAux false p l = lineSubAux false q l := by
  induction l with
  | nil => intro p q _ _; rfl
  | cons c t ih =>
    intro p q hp hq
    by_cases hc : c = '%'
    · subst hc
      rw [lineSubAux_pct p t hp, lineSubAux_pct q t hq]
      exact lineSubAux_skip_indep t p q
    · rw [lineSubAux_other p c t (by rintro ⟨h1, _⟩; exact hc h1),
        lineSubAux_other q c t (by rintro ⟨h1, _⟩; exact hc h1)]

/-- Claim C10 (implicit): when line-comment removal strips an unescaped
marker, it also removes the terminating newline of that line, so the text
preceding the marker is joined directly with the first character of the
following line. `a` is the text before the marker (no unescaped marker, not
ending in a backslash), `b` the commented-out rest of the line, `c` the
remaining text. -/
theorem lineCommentSub_joins_lines (a b c : List Char)
    (ha : noUnescapedPct none a = true)
    (hlast : prevAfter none a ≠ some '\\')
    (hnb : '\n' ∉ b) :
    lineCommentSub (a ++ '%' :: (b ++ '\n' :: c)) = a ++ lineCommentSub c := by
  unfold lineCommentSub
  rw [lineSubAux_comment a none _ ha hlast,
    lineSubAux_skip_through b _ c hnb]
  congr 1
  exact lineSubAux_prev_indep c (some '\n') none (by simp) (by simp)

/-- Witness for C10: stripping the comment in the two-line text `A%c`,
newline, `B` joins `A` directly with `B`. -/
theorem lineCommentSub_joins_lines_witness :
    lineCommentSub ("A%c\nB".data) = "AB".data := by
  have h := lineCommentSub_joins_lines ("A".data) ("c".data) ("B".data)
    (by decide) (by decide) (by decide)
  have hB : lineCommentSub ("B".data) = "B".data := by decide
  rw [hB] at h
  exact h

/-! ## Shared text utilities -/

/-- Match a literal character sequence at the head, returning the rest. -/
def matchLit : List Char → List Char → Option (List Char)
  | [], l => some l
  | _ :: _, [] => none
  | p :: ps, c :: t => if c = p then matchLit ps t else none

/-- `\s*`: greedily skip whitespace. -/
def skipWsL (l : List Char) : List Char := l.dropWhile isWs

/-- Literal prefix test (Python `str.startswith`). -/
def startsWithL (p l : List Char) : Bool := (matchLit p l).isSome

/-- Python `str.strip()`: drop whitespace from both ends. -/
def stripWs (l : List Char) : List Char :=
  ((l.dropWhile isWs).reverse.dropWhile isWs).reverse

/-- Python `str.split("\n")`. -/
def splitOnNl : List Char → List (List Char)
  | [] => [[]]
  | c :: t =>
    if c = '\n' then [] :: splitOnNl t
    else
      match splitOnNl t with
      | [] => [[c]]
      | l :: ls => (c :: l) :: ls

/-- `"\n".join(lines)`. -/
def joinNl : List (List Char) → List Char
  | [] => []
  | [l] => l
  | l :: ls => l ++ '\n' :: joinNl ls

/-- Match a literal character sequence case-insensitively (`re.IGNORECASE`),
returning the rest. -/
def matchCI : List Char → List Char → Option (List Char)
  | [], l => some l
  | _ :: _, [] => none
  | p :: ps, c :: t => if c.toLower = p.toLower then matchCI ps t else none

/-- Split at the first occurrence of `ch`: `(before, after)`, the separator
removed; `none` when `ch` does not occur. -/
def breakAtChar (ch : Char) : List Char → Option (List Char × List Char)
  | [] => none
  | c :: t =>
    if c = ch then some ([], t)
    else (breakAtChar ch t).map (fun p => (c :: p.1, p.2))

/-- Python `str.rstrip()`: drop trailing whitespace. -/
def rstripWs (l : List Char) : List Char := (l.reverse.dropWhile isWs).reverse

/-! ## 4.7 Indentation Reconstructor (`reindent_tex_content`) -/

/-- One alternative of `RE_INDENT`: `\begin\s*\{` (consuming through the
opening brace); also used with `end` for `RE_DEDENT`. -/
def matchCmdBrace (cmd : List Char) (l : List Char) : Option (List Char) :=
  match matchLit cmd l with
  | none => none
  | some r =>
    match skipWsL r with
    | '{' :: r2 => some r2
    | _ => none

/-- The other alternative: `\left\b` (or `\right\b`): the literal followed
by a word boundary; the boundary is zero-width, nothing more is consumed. -/
def matchCmdBoundary (cmd : List Char) (l : List Char) : Option (List Char) :=
  match matchLit cmd l with
  | none => none
  | some [] => some []
  | some (c :: r) => if isWordChar c then none else some (c :: r)

/-- `len(RE.findall(line))` for `RE = \\CMD1\s*\{|\\CMD2\b`: count
non-overlapping matches scanning left to right, preferring the first
alternative. The fuel argument (instantiated with the line length) makes
the recursion structural; every step consumes at least one character. -/
def countAltAux (cmd1 cmd2 : List Char) : Nat → List Char → Nat
  | 0, _ => 0
  | _, [] => 0
  | fuel + 1, c :: t =>
    match matchCmdBrace cmd1 (c :: t) with
    | some r => 1 + countAltAux cmd1 cmd2 fuel r
    | none =>
      match matchCmdBoundary cmd2 (c :: t) with
      | some r => 1 + countAltAux cmd1 cmd2 fuel r
      | none => countAltAux cmd1 cmd2 fuel t

/-- `len(RE_INDENT.findall(line))` where `RE_INDENT = \\begin\s*\{|\\left\b`. -/
def countIndentTok (l : List Char) : Nat :=
  countAltAux ("\\begin".data) ("\\left".data) l.length l

/-- `len(RE_DEDENT.findall(line))` where `RE_DEDENT = \\end\s*\{|\\right\b`. -/
def countDedentTok (l : List Char) : Nat :=
  countAltAux ("\\end".data) ("\\right".data) l.length l

/-- `re.match(r"\\begin\s*\{\s*document\s*\}", line)`: anchored prefix
match of the document-environment opener. -/
def matchBeginDocument (l : List Char) : Bool :=
  match matchLit ("\\begin".data) l with
  | none => false
  | some r =>
    match skipWsL r with
    | '{' :: r2 =>
      match matchLit ("document".data) (skipWsL r2) with
      | none => false
      | some r3 =>
        match skipWsL r3 with
        | '}' :: _ => true
        | _ => false
    | _ => false

/-- `indent_str * indent_level` with `indent_str = "    "`: the empty list
for non-positive levels. -/
def indentStr (lvl : Int) : List Char := List.replicate (4 * lvl.toNat) ' '

/-- The loop of `reindent_tex_content`, recorded as a trace. Each entry is
`(raw line, emitted line, level at which the line was emitted)`; the
carried `lvl` is the running `indent_level`. A blank (stripped-empty) line
is emitted as the empty line and leaves the level unchanged; a line
starting with `\end` or `\right` is dedented before being emitted; every
level update is clamped at zero by `max`. -/
def reindentTrace : Int → List (List Char) → List (List Char × List Char × Int)
  | _, [] => []
  | lvl, rl :: rest =>
    let line := stripWs rl
    if line = [] then (rl, [], lvl) :: reindentTrace lvl rest
    else
      let dedentFirst := startsWithL ("\\end".data) line || startsWithL ("\\right".data) line
      let delta0 : Int := (countIndentTok line : Int) - (countDedentTok line : Int)
      let delta : Int := if matchBeginDocument line then delta0 - 1 else delta0
      if dedentFirst then
        let lvl2 := max 0 (lvl + delta)
        (rl, indentStr lvl2 ++ line, lvl2) :: reindentTrace lvl2 rest
      else
        (rl, indentStr lvl ++ line, lvl) :: reindentTrace (max 0 (lvl + delta)) rest

/-- `reindent_tex_content(content)`: split into lines, re-emit each line at
the tracked indentation level, join with newlines. -/
def reindentTexContent (content : List Char) : List Char :=
  joinNl ((reindentTrace 0 (splitOnNl content)).map (fun e => e.2.1))

lemma reindentTrace_inv (lines : List (List Char)) :
    ∀ (lvl : Int), 0 ≤ lvl →
      ∀ e ∈ reindentTrace lvl lines,
        0 ≤ e.2.2 ∧ (stripWs e.1 = [] → e.2.1 = []) := by
  induction lines with
  | nil => intro lvl _ e he; simp [reindentTrace] at he
  | cons rl rest ih =>
    intro lvl hlvl e he
    simp only [reindentTrace] at he
    by_cases hblank : stripWs rl = []
    · rw [if_pos hblank] at he
      rcases List.mem_cons.mp he with rfl | hmem
      · exact ⟨hlvl, fun _ => rfl⟩
      · exact ih lvl hlvl e hmem
    · rw [if_neg hblank] at he
      by_cases hded : (startsWithL ("\\end".data) (stripWs rl)
          || startsWithL ("\\right".data) (stripWs rl)) = true
      · rw [if_pos hded] at he
        rcases List.mem_cons.mp he with rfl | hmem
        · exact ⟨le_max_left 0 _, fun hb => absurd hb hblank⟩
        · exact ih _ (le_max_left 0 _) e hmem
      · rw [if_neg hded] at he
        rcases List.mem_cons.mp he with rfl | hmem
        · exact ⟨hlvl, fun hb => absurd hb hblank⟩
        · exact ih _ (le_max_left 0 _) e hmem

/-- Claim C8: for every input text, including malformed input where close
markers outnumber open markers, the tracked indentation depth at which any
line of `reindent_tex_content` is emitted is never negative (every update
is clamped at zero), and blank lines are emitted as empty, unindented
lines. -/
theorem reindentTexContent_depth_nonneg (content : List Char) :
    ∀ e ∈ reindentTrace 0 (splitOnNl content),
      0 ≤ e.2.2 ∧ (stripWs e.1 = [] → e.2.1 = []) :=
  reindentTrace_inv (splitOnNl content) 0 le_rfl

/-- Witness for C8 on malformed input with more `\end` than `\begin`
markers: both emitted lines sit at depth 0 and the blank line is emitted
empty. -/
theorem reindentTexContent_depth_nonneg_witness :
    (0 ≤ (("\\end\x7bx\x7d".data, "\\end\x7bx\x7d".data, (0 : Int))).2.2 ∧
      (stripWs (("\\end\x7bx\x7d".data, "\\end\x7bx\x7d".data, (0 : Int))).1 = [] →
        (("\\end\x7bx\x7d".data, "\\end\x7bx\x7d".data, (0 : Int))).2.1 = [])) ∧
    reindentTexContent ("\\end\x7bx\x7d\n\na".data) = "\\end\x7bx\x7d\n\na".data := by
  constructor
  · exact reindentTexContent_depth_nonneg ("\\end\x7bx\x7d\n\na".data)
      ("\\end\x7bx\x7d".data, "\\end\x7bx\x7d".data, (0 : Int)) (by decide)
  · decide

/-! ## 4.8 Citation-Filtered Bibliography Builder (`clean_bib_file`) -/

/-- One match attempt of `@string\s*\{.*?\}` (IGNORECASE, DOTALL) at the
head of `l`: the lazy `.*?` stops at the first closing brace. Returns the
full matched text (in original case) and the rest. -/
def matchStringMacroAt (l : List Char) : Option (List Char × List Char) :=
  match matchCI ("@string".data) l with
  | none => none
  | some r1 =>
    match skipWsL r1 with
    | '\x7b' :: r2 =>
      match breakAtChar '\x7d' r2 with
      | none => none
      | some (_, rest) => some (l.take (l.length - rest.length), rest)
    | _ => none

/-- `re.findall(r"(@string\s*\{.*?\})", bib_content, IGNORECASE|DOTALL)`:
scan left to right, collecting non-overlapping matches. -/
def findStringMacros : Nat → List Char → List (List Char)
  | 0, _ => []
  | _, [] => []
  | fuel + 1, c :: t =>
    match matchStringMacroAt (c :: t) with
    | some (txt, rest) => txt :: findStringMacros fuel rest
    | none => findStringMacros fuel t

/-- `BIB_ENTRY_TYPES` in source order. -/
def bibEntryTypes : List String :=
  ["article", "book", "inproceedings", "phdthesis", "mastersthesis",
   "inbook", "incollection", "proceedings", "techreport", "unpublished", "misc"]

/-- The `(?:article|book|...)` alternation, case-insensitive; no entry type
is a prefix of another, so trying them in order is exact. -/
def matchBibType : List String → List Char → Option (List Char)
  | [], _ => none
  | ty :: tys, l =>
    match matchCI ty.data l with
    | some r => some r
    | none => matchBibType tys l

/-- Split at the first occurrence of the two-character sequence newline +
closing brace (the lazy `.*?\n\}`): `(before, after)`. -/
def breakAtNlBrace : List Char → Option (List Char × List Char)
  | [] => none
  | '\n' :: '\x7d' :: t => some ([], t)
  | c :: t => (breakAtNlBrace t).map (fun p => (c :: p.1, p.2))

/-- One match attempt of
`RE_ENTRY = (@(?:TYPES))\s*\{([^,]+),.*?\n\}` (IGNORECASE, DOTALL) at the
head of `l`: returns `(stripped key, full matched text)` and the rest. -/
def matchBibEntryAt (l : List Char) : Option ((List Char × List Char) × List Char) :=
  match l with
  | '@' :: r0 =>
    match matchBibType bibEntryTypes r0 with
    | none => none
    | some r1 =>
      match skipWsL r1 with
      | '\x7b' :: r2 =>
        match breakAtChar ',' r2 with
        | none => none
        | some (keyRaw, r3) =>
          if keyRaw = [] then none
          else
            match breakAtNlBrace r3 with
            | none => none
            | some (_, rest) =>
              some ((stripWs keyRaw, l.take (l.length - rest.length)), rest)
      | _ => none
  | _ => none

/-- `re.finditer(RE_ENTRY, bib_content)`: all non-overlapping entry
matches, as `(key, full text)` pairs. -/
def findBibEntries : Nat → List Char → List (List Char × List Char)
  | 0, _ => []
  | _, [] => []
  | fuel + 1, c :: t =>
    match matchBibEntryAt (c :: t) with
    | some (e, rest) => e :: findBibEntries fuel rest
    | none => findBibEntries fuel t

/-- `"\n\n".join(parts)`. -/
def joinBlank : List (List Char) → List Char
  | [] => []
  | [x] => x
  | x :: xs => x ++ '\n' :: '\n' :: joinBlank xs

/-- For `re.sub(r"\n\s*\n", "\n\n", s)`: after an initial newline, if the
following maximal whitespace run contains another newline, the greedy `\s*`
plus final `\n` consume up to the run's last newline; return the rest of
the text from just after that newline (`none` when the run has none). -/
def nlRunRest (t : List Char) : Option (List Char) :=
  let w := t.takeWhile isWs
  if w.contains '\n' then
    some ((w.reverse.takeWhile (· ≠ '\n')).reverse ++ t.drop w.length)
  else none

lemma takeWhile_ne_length_lt {x : Char} {l : List Char} (h : x ∈ l) :
    (l.takeWhile (· ≠ x)).length < l.length := by
  induction l with
  | nil => cases h
  | cons c t ih =>
    by_cases hc : c = x
    · subst hc; simp [List.takeWhile_cons]
    · rw [List.takeWhile_cons]
      have hx : x ∈ t := by
        rcases List.mem_cons.mp h with h1 | h1
        · exact absurd h1.symm hc
        · exact h1
      rw [if_pos (by simpa using hc)]
      simpa using ih hx

lemma nlRunRest_length {t rest : List Char} (h : nlRunRest t = some rest) :
    rest.length < t.length := by
  unfold nlRunRest at h
  set w := t.takeWhile isWs with hw
  by_cases hc : w.contains '\n'
  · rw [if_pos hc] at h
    injection h with h
    subst h
    have hnl : ('\n' : Char) ∈ w.reverse := by
      rw [List.mem_reverse]; simpa using hc
    have h1 : (w.reverse.takeWhile (· ≠ '\n')).length < w.reverse.length :=
      takeWhile_ne_length_lt hnl
    rw [List.length_reverse] at h1
    have h2 : w.length ≤ t.length := (t.takeWhile_sublist isWs).length_le
    simp only [List.length_append, List.length_reverse, List.length_drop]
    omega
  · rw [if_neg hc] at h; cases h

/-- `re.sub(r"\n\s*\n", "\n\n", s)`: collapse every newline-whitespace-
newline stretch to exactly one blank line, scanning left to right. -/
def blankNormAux : Nat → List Char → List Char
  | 0, l => l
  | _, [] => []
  | fuel + 1, c :: t =>
    if c = '\n' then
      match nlRunRest t with
      | some rest => '\n' :: '\n' :: blankNormAux fuel rest
      | none => '\n' :: blankNormAux fuel t
    else c :: blankNormAux fuel t

def blankNorm (l : List Char) : List Char := blankNormAux l.length l

/-- `clean_bib_file`, modelled on its pure content transformation: given the
bibliography source text and the set of used citation keys, keep all
`@string` macros and all entries whose key is cited; if nothing is kept,
signal nothing-to-write (`none`); otherwise produce the output file name
`main.bib` together with the comment-stripped, blank-normalized, stripped
content that is written. -/
def cleanBibFile (bibContent : List Char) (usedCitations : List (List Char)) :
    Option (List Char × List Char) :=
  let stringMacros := findStringMacros bibContent.length bibContent
  let entries := findBibEntries bibContent.length bibContent
  let keptEntries := (entries.filter (fun e => usedCitations.contains e.1)).map (fun e => e.2)
  if keptEntries = [] ∧ stringMacros = [] then none
  else
    let cleanContent := joinBlank (stringMacros ++ keptEntries)
    let uncommented := joinNl ((splitOnNl cleanContent).map (fun ln => rstripWs (lineCommentSub ln)))
    some ("main.bib".data, stripWs (blankNorm uncommented))

/-- `Path(name).stem`: the file name without its last extension. -/
def stemOf (n : List Char) : List Char :=
  if n.contains '.' then ((n.reverse.dropWhile (· ≠ '.')).tail).reverse else n

/-- One match attempt of `RE_BIBLIOGRAPHY = \\bibliography\s*\{\s*(.*?)\s*\}`
at the head of `l`: `(trimmed brace argument, rest)`. The lazy group cannot
cross a newline except inside the surrounding `\s*` runs, so a candidate
closing brace qualifies exactly when the whitespace-trimmed segment before
it is newline-free. -/
def braceArgSplit : Nat → List Char → List Char → Option (List Char × List Char)
  | 0, _, _ => none
  | _, _, [] => none
  | fuel + 1, acc, c :: t =>
    if c = '\x7d' then
      if ('\n' : Char) ∈ stripWs acc.reverse then braceArgSplit fuel (c :: acc) t
      else some (stripWs acc.reverse, t)
    else braceArgSplit fuel (c :: acc) t

def matchBibliographyCmd (l : List Char) : Option (List Char × List Char) :=
  match matchLit ("\\bibliography".data) l with
  | none => none
  | some r =>
    match skipWsL r with
    | '\x7b' :: r2 => braceArgSplit r2.length [] r2
    | _ => none

/-- `RE_BIBLIOGRAPHY.sub(new_bib_cmd, final_tex_content)` where
`new_bib_cmd` renders as `\bibliography{stem}`. -/
def rewriteBibAux (stem : List Char) : Nat → List Char → List Char
  | 0, l => l
  | _, [] => []
  | fuel + 1, c :: t =>
    match matchBibliographyCmd (c :: t) with
    | some (_, rest) =>
      ("\\bibliography\x7b".data ++ stem ++ "\x7d".data) ++ rewriteBibAux stem fuel rest
    | none => c :: rewriteBibAux stem fuel t

def rewriteBibliography (texContent stem : List Char) : List Char :=
  rewriteBibAux stem texContent.length texContent

/-- The caller's step 6 (`main`, around the `clean_bib_file` call): clean
the bibliography; only when a file name was actually produced is the
document's `\bibliography` reference rewritten to its stem, and only then
is a file written (the written file is the second component). -/
def mainBibStep (texContent bibContent : List Char) (cites : List (List Char)) :
    List Char × Option (List Char × List Char) :=
  match cleanBibFile bibContent cites with
  | some (name, content) => (rewriteBibliography texContent (stemOf name), some (name, content))
  | none => (texContent, none)

/-- Claim C9: for every bibliography source and citation key set, if no
entry's key is cited and no `@string` macro is present, `clean_bib_file`
signals nothing-to-write (returns no file name) rather than producing an
empty file, and in that case the caller neither writes a bibliography file
nor rewrites the document's `\bibliography` reference. -/
theorem cleanBibFile_nothing_to_write (bibContent texContent : List Char)
    (cites : List (List Char))
    (hents : ∀ e ∈ findBibEntries bibContent.length bibContent,
      cites.contains e.1 = false)
    (hmacs : findStringMacros bibContent.length bibContent = []) :
    cleanBibFile bibContent cites = none ∧
    mainBibStep texContent bibContent cites = (texContent, none) := by
  have hkept : (findBibEntries bibContent.length bibContent).filter
      (fun e => cites.contains e.1) = [] := by
    rw [List.filter_eq_nil_iff]
    intro e he
    simpa using hents e he
  have hclean : cleanBibFile bibContent cites = none := by
    simp only [cleanBibFile]
    rw [hkept, hmacs]
    simp
  refine ⟨hclean, ?_⟩
  unfold mainBibStep
  rw [hclean]

/-- Witness for C9: a one-entry bibliography whose key `a` is not cited
(`b` is) and which has no `@string` macros yields no output file and leaves
the document text untouched. -/
theorem cleanBibFile_nothing_to_write_witness :
    cleanBibFile ("@misc\x7ba,\nt\n\x7d".data) [("b".data)] = none ∧
    mainBibStep ("\\bibliography\x7bold\x7d".data) ("@misc\x7ba,\nt\n\x7d".data)
      [("b".data)] = ("\\bibliography\x7bold\x7d".data, none) :=
  cleanBibFile_nothing_to_write ("@misc\x7ba,\nt\n\x7d".data)
    ("\\bibliography\x7bold\x7d".data) [("b".data)] (by decide) (by decide)

/-! ## 4.4 Declaration Extractor (`_extract_packages`, `_extract_definitions`)
and 4.5 Preamble Assembler (`process_preamble_and_definitions`)

These scanners are index-based: positions refer to offsets into the fixed
text, exactly like the `match.start()` / `match.end()` coordinates the
source records for its backward deletion pass. -/

/-- `text[a:b]`. -/
def extractRange (text : List Char) (a b : Nat) : List Char :=
  (text.drop a).take (b - a)

/-- Match a literal at index `i`, returning the index after it. -/
def litFrom (text : List Char) : List Char → Nat → Option Nat
  | [], i => some i
  | p :: ps, i => if text.get? i = some p then litFrom text ps (i + 1) else none

/-- `\s*` from index `i`: the first index at or after `i` holding a
non-whitespace character (or the end). -/
def wsFromAux (text : List Char) : Nat → Nat → Nat
  | 0, i => i
  | fuel + 1, i =>
    match text.get? i with
    | some c => if isWs c then wsFromAux text fuel (i + 1) else i
    | none => i

def wsFrom (text : List Char) (i : Nat) : Nat := wsFromAux text text.length i

/-- End of the greedy `\w+`/`\w*` run starting at `i`. -/
def wordRunAux (text : List Char) : Nat → Nat → Nat
  | 0, i => i
  | fuel + 1, i =>
    match text.get? i with
    | some c => if isWordChar c then wordRunAux text fuel (i + 1) else i
    | none => i

def wordRunFrom (text : List Char) (i : Nat) : Nat := wordRunAux text text.length i

/-- Index of the first occurrence of `ch` at or after `i`. -/
def findCharFromAux (text : List Char) (ch : Char) : Nat → Nat → Option Nat
  | 0, _ => none
  | fuel + 1, i =>
    match text.get? i with
    | some c => if c = ch then some i else findCharFromAux text ch fuel (i + 1)
    | none => none

def findCharFrom (text : List Char) (ch : Char) (i : Nat) : Option Nat :=
  findCharFromAux text ch (text.length + 1) i

/-- `\[[^\]]*\]` at `i`: the index after the first `]`. -/
def bracketGroupFrom (text : List Char) (i : Nat) : Option Nat :=
  if text.get? i = some '[' then
    (findCharFrom text ']' (i + 1)).map (· + 1)
  else none

/-- `\{[^\}]+\}` (equivalently the lazy `\{[^\}]+?\}`) at `i`: the index
after the first `}` plus the non-empty inner content. -/
def bracePlusTo (text : List Char) (i : Nat) : Option (Nat × List Char) :=
  if text.get? i = some '\x7b' then
    match findCharFrom text '\x7d' (i + 1) with
    | some k => if i + 1 < k then some (k + 1, extractRange text (i + 1) k) else none
    | none => none
  else none

/-- Word-character test at an index (out of range counts as non-word). -/
def wordAt (text : List Char) (i : Nat) : Bool :=
  match text.get? i with
  | some c => isWordChar c
  | none => false

/-- The `\b` assertion at index `i`: word-ness changes between the previous
character (start of text counts as non-word) and the current one. -/
def boundaryAt (text : List Char) (i : Nat) : Bool :=
  (if i = 0 then false else wordAt text (i - 1)) != wordAt text i

/-! ### `_extract_packages` -/

/-- One match attempt of
`RE_USEPACKAGE_CMD = \\usepackage(?:\[[^\]]*\])?\{[^\}]+\}` at index `i`:
`(end index, brace content)`. The optional bracket group is tried greedily
first, falling back to no option if no brace argument follows it. -/
def matchUsepackageAt (text : List Char) (i : Nat) : Option (Nat × List Char) :=
  match litFrom text ("\\usepackage".data) i with
  | none => none
  | some j1 =>
    match bracketGroupFrom text j1 with
    | some j2 =>
      match bracePlusTo text j2 with
      | some r => some r
      | none => bracePlusTo text j1
    | none => bracePlusTo text j1

/-- `RE_PKG_NAME_EXTRACTOR` applied to the matched command text, then
`.split(",")[0].strip()`: the first comma-separated name in the braces. -/
def pkgNameOf (inner : List Char) : List Char :=
  match breakAtChar ',' inner with
  | some p => stripWs p.1
  | none => stripWs inner

/-- `re.finditer(RE_USEPACKAGE_CMD, content)`: `(start, end, sort name)`
triples of all non-overlapping matches. -/
def findUsepackagesAux (text : List Char) : Nat → Nat → List (Nat × Nat × List Char)
  | 0, _ => []
  | fuel + 1, i =>
    if i < text.length then
      match matchUsepackageAt text i with
      | some (e, inner) => (i, e, pkgNameOf inner) :: findUsepackagesAux text fuel e
      | none => findUsepackagesAux text fuel (i + 1)
    else []

def findUsepackages (text : List Char) : List (Nat × Nat × List Char) :=
  findUsepackagesAux text (text.length + 1) 0

/-- Python string comparison (code-point lexicographic), as used by
`sorted`. -/
def lexLe : List Char → List Char → Bool
  | [], _ => true
  | _ :: _, [] => false
  | x :: xs, y :: ys => if x = y then lexLe xs ys else decide (x.toNat < y.toNat)

/-- Stable insertion into a sorted list: an element goes before the first
element of larger-or-equal key, matching Python's stable `sorted`. -/
def insertByKey {α : Type} (key : α → List Char) (x : α) : List α → List α
  | [] => [x]
  | y :: ys => if lexLe (key x) (key y) then x :: y :: ys else y :: insertByKey key x ys

def stableSortByKey {α : Type} (key : α → List Char) (l : List α) : List α :=
  l.foldr (insertByKey key) []

/-- Python-dict insert-or-overwrite: overwriting keeps the original
insertion position, as CPython dicts do. -/
def upsert (k v : List Char) : List (List Char × List Char) → List (List Char × List Char)
  | [] => [(k, v)]
  | (k', v') :: rest => if k' = k then (k, v) :: rest else (k', v') :: upsert k v rest

def lookupA (k : List Char) : List (List Char × List Char) → Option (List Char)
  | [] => none
  | (k', v) :: rest => if k' = k then some v else lookupA k rest

/-- `_extract_packages(content)`: the unique `\usepackage` command texts
sorted by primary package name, plus the coordinates of every match. -/
def extractPackages (text : List Char) : List (List Char) × List (Nat × Nat) :=
  let ms := findUsepackages text
  let decls := ms.foldl (fun acc m => upsert (extractRange text m.1 m.2.1) m.2.2 acc) []
  if decls = [] then ([], [])
  else ((stableSortByKey (fun p => p.2) decls).map (fun p => p.1),
    ms.map (fun m => (m.1, m.2.1)))

/-! ### `_extract_definitions` -/

/-- The two `def_type` values. -/
inductive DefType
  | command
  | color
deriving DecidableEq

/-- `\\(?:renew|new|provide)command`: the alternation tried in order; the
three keywords diverge at their first letter, so this is exact. -/
def matchCmdKw (text : List Char) (i : Nat) : Option Nat :=
  match litFrom text ("\\renewcommand".data) i with
  | some j => some j
  | none =>
    match litFrom text ("\\newcommand".data) i with
    | some j => some j
    | none => litFrom text ("\\providecommand".data) i

/-- `((?:\[[^\]]*\]){0,2})\s*(\{)` after the macro name: up to two bracket
groups, greedily, each alternative checked for a following `\s*{`; returns
the index of the body's opening brace (the `start(3)` coordinate). -/
def bodyBraceAfterBrackets (text : List Char) (i : Nat) : Option Nat :=
  let braceAt : Nat → Option Nat := fun j =>
    let k := wsFrom text j
    if text.get? k = some '\x7b' then some k else none
  let try2 : Option Nat :=
    match bracketGroupFrom text i with
    | some i1 =>
      match bracketGroupFrom text i1 with
      | some i2 => braceAt i2
      | none => none
    | none => none
  let try1 : Option Nat :=
    match bracketGroupFrom text i with
    | some i1 => braceAt i1
    | none => none
  (try2 <|> try1) <|> braceAt i

/-- One match attempt of `RE_DEF_HEAD` for `def_type == "command"`:
`\\(?:renew|new|provide)command\s*\*?\s*\{\s*\\(\w+)\s*\}((?:\[[^\]]*\]){0,2})\s*(\{)`.
Returns `(name, index of the body's opening brace)`. -/
def matchDefHeadCommand (text : List Char) (i : Nat) : Option (List Char × Nat) :=
  match matchCmdKw text i with
  | none => none
  | some j1 =>
    let j2 := wsFrom text j1
    let j3 := if text.get? j2 = some '*' then j2 + 1 else j2
    let j4 := wsFrom text j3
    if text.get? j4 = some '\x7b' then
      let j5 := wsFrom text (j4 + 1)
      if text.get? j5 = some '\\' then
        let j6 := wordRunFrom text (j5 + 1)
        if j5 + 1 < j6 then
          let j7 := wsFrom text j6
          if text.get? j7 = some '\x7d' then
            (bodyBraceAfterBrackets text (j7 + 1)).map
              (fun b => (extractRange text (j5 + 1) j6, b))
          else none
        else none
      else none
    else none

/-- One match attempt of `RE_DEF_HEAD` for `def_type == "color"`:
`\\definecolor\s*\{\s*(\w+)\s*\}\s*\{\s*(\w+)\s*\}\s*(\{)`. -/
def matchDefHeadColor (text : List Char) (i : Nat) : Option (List Char × Nat) :=
  match litFrom text ("\\definecolor".data) i with
  | none => none
  | some j1 =>
    let j2 := wsFrom text j1
    if text.get? j2 = some '\x7b' then
      let j3 := wsFrom text (j2 + 1)
      let j4 := wordRunFrom text j3
      if j3 < j4 then
        let j5 := wsFrom text j4
        if text.get? j5 = some '\x7d' then
          let j6 := wsFrom text (j5 + 1)
          if text.get? j6 = some '\x7b' then
            let j7 := wsFrom text (j6 + 1)
            let j8 := wordRunFrom text j7
            if j7 < j8 then
              let j9 := wsFrom text j8
              if text.get? j9 = some '\x7d' then
                let j10 := wsFrom text (j9 + 1)
                if text.get? j10 = some '\x7b' then
                  some (extractRange text j3 j4, j10)
                else none
              else none
            else none
          else none
        else none
      else none
    else none

def matchDefHead (dt : DefType) (text : List Char) (i : Nat) : Option (List Char × Nat) :=
  match dt with
  | .command => matchDefHeadCommand text i
  | .color => matchDefHeadColor text i

/-- `re.finditer(RE_DEF_HEAD, content)`: `(start, name, body brace index)`
triples; a match ends at its third group (the body's opening brace), so
scanning resumes right after that brace. -/
def findDefHeadsAux (dt : DefType) (text : List Char) : Nat → Nat → List (Nat × List Char × Nat)
  | 0, _ => []
  | fuel + 1, i =>
    if i < text.length then
      match matchDefHead dt text i with
      | some (name, b) => (i, name, b) :: findDefHeadsAux dt text fuel (b + 1)
      | none => findDefHeadsAux dt text fuel (i + 1)
    else []

def findDefHeads (dt : DefType) (text : List Char) : List (Nat × List Char × Nat) :=
  findDefHeadsAux dt text (text.length + 1) 0

/-- A recorded definition: the `{"name", "text", "start", "end"}` dict of
`_extract_definitions`. -/
structure DefRecord where
  name : List Char
  text : List Char
  startIdx : Nat
  endIdx : Nat
deriving DecidableEq

/-- The `all_definitions` list: every head match whose body has a balanced
closing brace (`_find_balanced_braces` not returning the sentinel), with
its full text and coordinates. -/
def allDefinitions (dt : DefType) (text : List Char) : List DefRecord :=
  (findDefHeads dt text).filterMap (fun m =>
    let bodyEnd := findBalancedBraces text m.2.2
    if bodyEnd = -1 then none
    else
      let e := bodyEnd.toNat + 1
      some ⟨m.2.1, extractRange text m.1 e, m.1, e⟩)

/-- One match attempt of the usage pattern at index `i`: `\\name\b` for
macros, `\bname\b` for colors. Returns the index after the match. -/
def usageMatchAt (dt : DefType) (text name : List Char) (i : Nat) : Option Nat :=
  match dt with
  | .command =>
    match litFrom text ('\\' :: name) i with
    | some j => if boundaryAt text j then some j else none
    | none => none
  | .color =>
    if boundaryAt text i then
      match litFrom text name i with
      | some j => if boundaryAt text j then some j else none
      | none => none
    else none

/-- `len(re_usage.findall(content))`: count non-overlapping usage matches,
scanning left to right. -/
def countUsageAux (dt : DefType) (text name : List Char) : Nat → Nat → Nat
  | 0, _ => 0
  | fuel + 1, i =>
    if i ≤ text.length then
      match usageMatchAt dt text name i with
      | some j =>
        if i < j then 1 + countUsageAux dt text name fuel j
        else 1 + countUsageAux dt text name fuel (i + 1)
      | none => countUsageAux dt text name fuel (i + 1)
    else 0

def countUsage (dt : DefType) (text name : List Char) : Nat :=
  countUsageAux dt text name (text.length + 2) 0

/-- The `used_definitions_map` loop: walk the recorded definitions in
order; a definition is added iff its usage count exceeds 1, and a later
definition with the same name overwrites the earlier entry. -/
def usedMapFold (dt : DefType) (text : List Char) :
    List DefRecord → List (List Char × List Char) → List (List Char × List Char)
  | [], acc => acc
  | d :: ds, acc =>
    usedMapFold dt text ds
      (if 1 < countUsage dt text d.name then upsert d.name d.text acc else acc)

/-- `_extract_definitions(content, def_type)`: the kept name-to-text map
and the coordinates of all recorded definitions. -/
def extractDefinitions (dt : DefType) (text : List Char) :
    List (List Char × List Char) × List (Nat × Nat) :=
  let defs := allDefinitions dt text
  (usedMapFold dt text defs [], defs.map (fun d => (d.startIdx, d.endIdx)))

/-! ### `process_preamble_and_definitions` -/

/-- One match attempt of
`RE_DOC_CLASS = \\documentclass(?:\[[^\]]*\])?\{[^\}]+?\}` at `i`. -/
def matchDocclassAt (text : List Char) (i : Nat) : Option Nat :=
  match litFrom text ("\\documentclass".data) i with
  | none => none
  | some j1 =>
    match bracketGroupFrom text j1 with
    | some j2 =>
      match bracePlusTo text j2 with
      | some r => some r.1
      | none => (bracePlusTo text j1).map (fun r => r.1)
    | none => (bracePlusTo text j1).map (fun r => r.1)

/-- `RE_DOC_CLASS.search(body_content)`: the first match, as
`(start, end)`. -/
def docClassSearchAux (text : List Char) : Nat → Nat → Option (Nat × Nat)
  | 0, _ => none
  | fuel + 1, i =>
    if i < text.length then
      match matchDocclassAt text i with
      | some e => some (i, e)
      | none => docClassSearchAux text fuel (i + 1)
    else none

def docClassSearch (text : List Char) : Option (Nat × Nat) :=
  docClassSearchAux text (text.length + 1) 0

/-- Backward whitespace extension before a deletion:
`while start > 0 and content_list[start-1].isspace(): start -= 1`. -/
def wsExtendBack (cl : List Char) : Nat → Nat
  | 0 => 0
  | s + 1 =>
    match cl.get? s with
    | some c => if isWs c then wsExtendBack cl s else s + 1
    | none => s + 1

/-- `del content_list[start:end]`. -/
def delRange (cl : List Char) (s e : Nat) : List Char := cl.take s ++ cl.drop e

/-- The surgical deletion pass: ranges already sorted by descending start,
each extended backward over whitespace, deleted from the evolving buffer. -/
def applyDeletions : List Char → List (Nat × Nat) → List Char
  | cl, [] => cl
  | cl, (s, e) :: rest => applyDeletions (delRange cl (wsExtendBack cl s) e) rest

/-- `all_coords.sort(key=lambda x: x[0], reverse=True)`: stable descending
sort by start offset. -/
def insertDescByStart (x : Nat × Nat) : List (Nat × Nat) → List (Nat × Nat)
  | [] => [x]
  | y :: ys => if y.1 ≤ x.1 then x :: y :: ys else y :: insertDescByStart x ys

def sortDescByStart (l : List (Nat × Nat)) : List (Nat × Nat) :=
  l.foldr insertDescByStart []

/-- `process_preamble_and_definitions(content)`: extract packages, macro
and color definitions; delete all their occurrences backward; rebuild the
preamble block (packages sorted by name, then macros sorted by name, then
colors sorted by name, blank-line separated) and insert it after the
document-class declaration, or prepend it when there is none, or pass the
text through when there is nothing to insert. -/
def processPreamble (content : List Char) : List Char :=
  let pkgs := extractPackages content
  let cmds := extractDefinitions .command content
  let cols := extractDefinitions .color content
  let allCoords := sortDescByStart (pkgs.2 ++ cmds.2 ++ cols.2)
  let body := applyDeletions content allCoords
  let parts : List (List Char) :=
    (if pkgs.1 ≠ [] then [joinNl pkgs.1] else []) ++
    (if cmds.1 ≠ [] then [joinNl ((stableSortByKey (fun p => p.1) cmds.1).map (fun p => p.2))] else []) ++
    (if cols.1 ≠ [] then [joinNl ((stableSortByKey (fun p => p.1) cols.1).map (fun p => p.2))] else [])
  let block := joinBlank (parts.filter (fun p => p ≠ []))
  match docClassSearch body with
  | some m =>
    if block = [] then body
    else body.take m.2 ++ ('\n' :: '\n' :: block) ++ body.drop m.2
  | none =>
    if block = [] then body
    else block ++ ('\n' :: '\n' :: body)

/-- Substring occurrence test. -/
def containsSeq (pat : List Char) : List Char → Bool
  | [] => startsWithL pat []
  | c :: t => startsWithL pat (c :: t) || containsSeq pat t

/-- The input refuting the universally quantified part of C1: the macro
`\foo` is defined exactly once and its name has no other word-boundary
occurrence, yet after deletion the surrounding text joins up to spell the
definition text again. -/
def c1Input : List Char :=
  "\\newcommand\x7b\\foo\x7d\x7by\x7dA\\newcommand\x7b\\fo \\usepackage\x7bz\x7do\x7d\x7by\x7d".data

/-- Counterexample to C1 as stated: in `c1Input` the macro `foo` is
recorded exactly once, its word-boundary usage count is 1 (so it is
correctly absent from the kept set), but its definition text still occurs
in the assembler's output, because deleting the embedded `\usepackage`
range with backward whitespace extension joins `\fo` and `o}{y}` into a
fresh copy of `\newcommand{\foo}{y}`. -/
theorem extractDefinitions_drop_text_counterexample :
    (allDefinitions .command c1Input).map (fun d => d.name) = [("foo".data)] ∧
    countUsage .command c1Input ("foo".data) = 1 ∧
    lookupA ("foo".data) (extractDefinitions .command c1Input).1 = none ∧
    containsSeq ("\\newcommand\x7b\\foo\x7d\x7by\x7d".data) (processPreamble c1Input) = true := by
  decide

/-- Text of the last recorded definition carrying a given name. -/
def lastDefText (name : List Char) : List DefRecord → Option (List Char)
  | [] => none
  | d :: ds =>
    match lastDefText name ds with
    | some t => some t
    | none => if d.name = name then some d.text else none

lemma lookupA_upsert_self (k v : List Char) (m : List (List Char × List Char)) :
    lookupA k (upsert k v m) = some v := by
  induction m with
  | nil => simp [upsert, lookupA]
  | cons p rest ih =>
    by_cases h : p.1 = k
    · simp [upsert, lookupA, h]
    · simpa [upsert, lookupA, h] using ih

lemma lookupA_upsert_other (k k' v : List Char) (m : List (List Char × List Char))
    (h : k' ≠ k) : lookupA k (upsert k' v m) = lookupA k m := by
  induction m with
  | nil => simp [upsert, lookupA, h]
  | cons p rest ih =>
    by_cases hp : p.1 = k'
    · simp [upsert, lookupA, hp, h]
    · by_cases hk : p.1 = k
      · simp [upsert, lookupA, hp, hk, Ne.symm h]
      · simp [upsert, lookupA, hp, hk, ih]

lemma usedMapFold_lookup_of_not_used (dt : DefType) (text name : List Char)
    (h : ¬ 1 < countUsage dt text name) (ds : List DefRecord) :
    ∀ acc, lookupA name (usedMapFold dt text ds acc) = lookupA name acc := by
  induction ds with
  | nil => intro acc; rfl
  | cons d ds ih =>
    intro acc
    simp only [usedMapFold]
    rw [ih]
    by_cases hc : 1 < countUsage dt text d.name
    · rw [if_pos hc]
      have hne : d.name ≠ name := fun he => h (he ▸ hc)
      exact lookupA_upsert_other name d.name d.text acc hne
    · rw [if_neg hc]

lemma usedMapFold_lookup_of_used (dt : DefType) (text name : List Char)
    (h : 1 < countUsage dt text name) (ds : List DefRecord) :
    ∀ acc, lookupA name (usedMapFold dt text ds acc) =
      match lastDefText name ds with
      | some t => some t
      | none => lookupA name acc := by
  induction ds with
  | nil => intro acc; rfl
  | cons d ds ih =>
    intro acc
    simp only [usedMapFold, lastDefText]
    rw [ih]
    cases hlast : lastDefText name ds with
    | some t => rfl
    | none =>
      by_cases hn : d.name = name
      · rw [if_pos hn, if_pos (hn ▸ h), hn, lookupA_upsert_self]
      · rw [if_neg hn]
        by_cases hc : 1 < countUsage dt text d.name
        · rw [if_pos hc]
          exact lookupA_upsert_other name d.name d.text acc hn
        · rw [if_neg hc]

lemma lastDefText_isSome_of_mem {d : DefRecord} {ds : List DefRecord} (hd : d ∈ ds) :
    (lastDefText d.name ds).isSome = true := by
  induction ds with
  | nil => cases hd
  | cons x xs ih =>
    simp only [lastDefText]
    rcases List.mem_cons.mp hd with rfl | hmem
    · cases hl : lastDefText d.name xs <;> simp
    · have h := ih hmem
      cases hl : lastDefText d.name xs with
      | none => rw [hl] at h; cases h
      | some t => simp

/-- Claim C1, amended: for every text and every recorded macro/color
definition, the definition's name is in the kept set iff the word-boundary
occurrence count of its name over the entire text (definitions included)
exceeds 1; when kept, the stored text is that of the last definition with
that name; and every recorded definition's coordinate span (not its text,
which can reappear by juxtaposition) is scheduled for deletion. -/
theorem extractDefinitions_kept_iff (dt : DefType) (text : List Char) (d : DefRecord)
    (hd : d ∈ allDefinitions dt text) :
    ((lookupA d.name (extractDefinitions dt text).1).isSome = true ↔
        1 < countUsage dt text d.name) ∧
    (1 < countUsage dt text d.name →
      lookupA d.name (extractDefinitions dt text).1 =
        lastDefText d.name (allDefinitions dt text)) ∧
    (extractDefinitions dt text).2 =
      (allDefinitions dt text).map (fun x => (x.startIdx, x.endIdx)) := by
  refine ⟨?_, ?_, rfl⟩
  · by_cases h : 1 < countUsage dt text d.name
    · simp only [extractDefinitions]
      rw [usedMapFold_lookup_of_used dt text d.name h (allDefinitions dt text) []]
      have hsome := lastDefText_isSome_of_mem hd
      cases hlast : lastDefText d.name (allDefinitions dt text) with
      | some t => simpa using h
      | none => rw [hlast] at hsome; cases hsome
    · simp only [extractDefinitions]
      rw [usedMapFold_lookup_of_not_used dt text d.name h (allDefinitions dt text) []]
      simpa [lookupA] using h
  · intro h
    simp only [extractDefinitions]
    rw [usedMapFold_lookup_of_used dt text d.name h (allDefinitions dt text) []]
    have hsome := lastDefText_isSome_of_mem hd
    cases hlast : lastDefText d.name (allDefinitions dt text) with
    | some t => rfl
    | none => rw [hlast] at hsome; cases hsome

/-- Witness for the amended C1 at a concrete input: `\aa` is defined once
and used once elsewhere, so it is kept with its (only) definition text. -/
theorem extractDefinitions_kept_iff_witness :
    ((lookupA ("aa".data)
        (extractDefinitions .command ("\\newcommand\x7b\\aa\x7d\x7b1\x7d \\aa".data)).1).isSome = true ↔
      1 < countUsage .command ("\\newcommand\x7b\\aa\x7d\x7b1\x7d \\aa".data) ("aa".data)) ∧
    (1 < countUsage .command ("\\newcommand\x7b\\aa\x7d\x7b1\x7d \\aa".data) ("aa".data) →
      lookupA ("aa".data)
          (extractDefinitions .command ("\\newcommand\x7b\\aa\x7d\x7b1\x7d \\aa".data)).1 =
        lastDefText ("aa".data)
          (allDefinitions .command ("\\newcommand\x7b\\aa\x7d\x7b1\x7d \\aa".data))) ∧
    (extractDefinitions .command ("\\newcommand\x7b\\aa\x7d\x7b1\x7d \\aa".data)).2 =
      (allDefinitions .command ("\\newcommand\x7b\\aa\x7d\x7b1\x7d \\aa".data)).map
        (fun x => (x.startIdx, x.endIdx)) :=
  extractDefinitions_kept_iff .command ("\\newcommand\x7b\\aa\x7d\x7b1\x7d \\aa".data)
    ⟨("aa".data), ("\\newcommand\x7b\\aa\x7d\x7b1\x7d".data), 0, 19⟩ (by decide)

/-- The input refuting C6: the macro `\aa` is used only inside the unused
macro `\bb`, so the first pass keeps `\aa` but the second pass drops it. -/
def c6Input : List Char :=
  "\\documentclass\x7ba\x7d\n\\newcommand\x7b\\aa\x7d\x7b1\x7d\n\\newcommand\x7b\\bb\x7d\x7b\\aa\x7d\nx".data

/-- Counterexample to C6 as stated: the Preamble Assembler is not
idempotent on `c6Input`. -/
theorem processPreamble_not_idempotent :
    processPreamble (processPreamble c6Input) ≠ processPreamble c6Input := by
  decide

/-- Claim C6, amended: the assembler passes through unchanged (hence is
idempotent on) any text in which it finds no package, macro, or color
declarations; on general texts idempotence fails because a second pass can
drop a kept definition whose only uses outside its own definition were
inside definitions the first pass removed. -/
theorem processPreamble_id_of_no_decls (content : List Char)
    (hp : extractPackages content = ([], []))
    (hc : allDefinitions .command content = [])
    (hcol : allDefinitions .color content = []) :
    processPreamble content = content ∧
    processPreamble (processPreamble content) = processPreamble content := by
  have h1 : processPreamble content = content := by
    simp only [processPreamble, extractDefinitions, hp, hc, hcol]
    simp only [usedMapFold, List.map_nil, List.append_nil, List.nil_append]
    simp only [sortDescByStart, List.foldr_nil, applyDeletions]
    simp only [ne_eq, not_true_eq_false, if_false, List.nil_append, List.append_nil,
      List.filter_nil, joinBlank]
    cases hdc : docClassSearch content <;> simp
  exact ⟨h1, by rw [h1, h1]⟩

/-- Witness for the amended C6: a declaration-free text passes through
unchanged and the assembler is idempotent on it. -/
theorem processPreamble_id_of_no_decls_witness :
    processPreamble ("hello".data) = "hello".data ∧
    processPreamble (processPreamble ("hello".data)) = processPreamble ("hello".data) :=
  processPreamble_id_of_no_decls ("hello".data) (by decide) (by decide) (by decide)

/-! ## 4.6 Paragraph Reflow Engine: the protected-block splitter
(`RE_PROTECTED_BLOCKS.split` in `clean_tex_content`)

The environment names are interpolated into the pattern unescaped, so in
`figure*`, `table*`, `equation*` and `align*` the `*` acts as a regex
quantifier on the preceding letter; each alternative is therefore a literal
prefix plus an optional starred letter. -/

/-- Greedy run of a single repeated character (`e*`, `n*`). -/
def starRunAux (text : List Char) (ch : Char) : Nat → Nat → Nat
  | 0, i => i
  | fuel + 1, i =>
    if text.get? i = some ch then starRunAux text ch fuel (i + 1) else i

def starRunFrom (text : List Char) (ch : Char) (i : Nat) : Nat :=
  starRunAux text ch text.length i

/-- The `PROTECTED_ENVIRONMENTS` alternation in source order, compiled:
each entry is the literal part and the optional starred letter. -/
def protectedAltSpecs : List (String × Option Char) :=
  [("figure", none), ("figur", some 'e'), ("table", none), ("tabl", some 'e'),
   ("tabular", none), ("verbatim", none), ("Verbatim", none), ("lstlisting", none),
   ("equation", none), ("equatio", some 'n'), ("align", none), ("alig", some 'n'),
   ("itemize", none), ("enumerate", none), ("description", none)]

/-- Try one alternative at index `i` followed by `\s*\}`; returns the
matched name text and the index after the closing brace. Reducing a
greedy starred run can never help, because the following character would
then be the starred letter, which is neither whitespace nor a brace. -/
def matchEnvAlt (text : List Char) (i : Nat) (lit : String) (st : Option Char) :
    Option (List Char × Nat) :=
  match litFrom text lit.data i with
  | none => none
  | some j1 =>
    let j2 := match st with | some ch => starRunFrom text ch j1 | none => j1
    let j3 := wsFrom text j2
    if text.get? j3 = some '\x7d' then some (extractRange text i j2, j3 + 1) else none

/-- The alternation, tried in order; at most one alternative can complete
(a successful alternative is followed by whitespace or `}`, which no other
alternative's extra letters could consume). -/
def matchEnvAlts (text : List Char) (i : Nat) :
    List (String × Option Char) → Option (List Char × Nat)
  | [] => none
  | (lit, st) :: rest =>
    match matchEnvAlt text i lit st with
    | some r => some r
    | none => matchEnvAlts text i rest

/-- `\\KW\s*\{\s*(?:ALTS)\s*\}` at index `i`: the environment name and the
index just after the token's closing brace. -/
def envTokAt (text kw : List Char) (i : Nat) : Option (List Char × Nat) :=
  match litFrom text kw i with
  | none => none
  | some j1 =>
    let j2 := wsFrom text j1
    if text.get? j2 = some '\x7b' then
      matchEnvAlts text (wsFrom text (j2 + 1)) protectedAltSpecs
    else none

def beginTokAt (text : List Char) (i : Nat) : Option (List Char × Nat) :=
  envTokAt text ("\\begin".data) i

def endTokAt (text : List Char) (i : Nat) : Option (List Char × Nat) :=
  envTokAt text ("\\end".data) i

/-- Scan indices `i, i+1, ...` below `stop` for the first position where
`f` matches. -/
def scanForAux {α : Type} (f : Nat → Option α) (stop : Nat) : Nat → Nat → Option (Nat × α)
  | 0, _ => none
  | fuel + 1, i =>
    if i < stop then
      match f i with
      | some a => some (i, a)
      | none => scanForAux f stop fuel (i + 1)
    else none

def scanFor {α : Type} (f : Nat → Option α) (stop i : Nat) : Option (Nat × α) :=
  scanForAux f stop (stop + 1) i

/-- `RE_PROTECTED_BLOCKS.split(content)` as index spans: alternating
`(false, a, b)` free spans and `(true, a, b)` protected spans. A protected
span runs from the leftmost begin token to the end of the first end token
after it (the lazy `.*?` under DOTALL), the begin and end environment
names being matched independently. When a begin token has no following end
token, no later begin token can have one either (an end token cannot start
inside a begin token), so the rest of the text is one free span, exactly
as the regex engine behaves. -/
def splitProtAux (text : List Char) : Nat → Nat → List (Bool × Nat × Nat)
  | 0, pos => [(false, pos, text.length)]
  | fuel + 1, pos =>
    match scanFor (beginTokAt text) text.length pos with
    | none => [(false, pos, text.length)]
    | some (q, (_, r)) =>
      match scanFor (endTokAt text) text.length r with
      | none => [(false, pos, text.length)]
      | some (_, (_, k)) =>
        (false, pos, q) :: (true, q, k) :: splitProtAux text fuel k

def splitProtected (text : List Char) : List (Bool × Nat × Nat) :=
  splitProtAux text (text.length + 1) 0

lemma litFrom_le (text : List Char) (p : List Char) :
    ∀ i j, litFrom text p i = some j → i ≤ j := by
  induction p with
  | nil => intro i j h; simp only [litFrom] at h; injection h with h; omega
  | cons c cs ih =>
    intro i j h
    simp only [litFrom] at h
    split at h
    · have := ih (i + 1) j h; omega
    · cases h

lemma wsFromAux_le (text : List Char) : ∀ fuel i, i ≤ wsFromAux text fuel i := by
  intro fuel
  induction fuel with
  | zero => intro i; simp [wsFromAux]
  | succ n ih =>
    intro i
    simp only [wsFromAux]
    cases text.get? i with
    | none => exact le_rfl
    | some c =>
      by_cases h : isWs c
      · simp only [if_pos h]; have := ih (i + 1); omega
      · simp [if_neg h]

lemma wsFrom_le (text : List Char) (i : Nat) : i ≤ wsFrom text i :=
  wsFromAux_le text text.length i

lemma starRunAux_le (text : List Char) (ch : Char) :
    ∀ fuel i, i ≤ starRunAux text ch fuel i := by
  intro fuel
  induction fuel with
  | zero => intro i; simp [starRunAux]
  | succ n ih =>
    intro i
    simp only [starRunAux]
    split
    · have := ih (i + 1); omega
    · exact le_rfl

lemma get?_lt_length {text : List Char} {i : Nat} {c : Char}
    (h : text.get? i = some c) : i < text.length :=
  List.get?_eq_some.mp h |>.1

lemma matchEnvAlt_bounds {text : List Char} {i : Nat} {lit : String} {st : Option Char}
    {n : List Char} {e : Nat} (h : matchEnvAlt text i lit st = some (n, e)) :
    i < e ∧ e ≤ text.length := by
  unfold matchEnvAlt at h
  cases hlit : litFrom text lit.data i with
  | none => rw [hlit] at h; cases h
  | some j1 =>
    rw [hlit] at h
    have hj1 := litFrom_le text lit.data i j1 hlit
    cases st with
    | none =>
      simp only at h
      split at h
      · rename_i hbr
        injection h with h
        have he : e = wsFrom text j1 + 1 := (congrArg Prod.snd h).symm
        have hj3 := wsFrom_le text j1
        have hlt := get?_lt_length hbr
        constructor <;> omega
      · cases h
    | some ch =>
      simp only at h
      split at h
      · rename_i hbr
        injection h with h
        have he : e = wsFrom text (starRunFrom text ch j1) + 1 :=
          (congrArg Prod.snd h).symm
        have hj2 := starRunAux_le text ch text.length j1
        have hj3 := wsFrom_le text (starRunFrom text ch j1)
        have hlt := get?_lt_length hbr
        have hj2' : j1 ≤ starRunFrom text ch j1 := hj2
        constructor <;> omega
      · cases h

lemma matchEnvAlts_bounds {text : List Char} {i : Nat} {n : List Char} {e : Nat} :
    ∀ specs, matchEnvAlts text i specs = some (n, e) → i < e ∧ e ≤ text.length := by
  intro specs
  induction specs with
  | nil => intro h; cases h
  | cons s rest ih =>
    intro h
    simp only [matchEnvAlts] at h
    cases hs : matchEnvAlt text i s.1 s.2 with
    | some r =>
      rw [hs] at h; injection h with h; subst h
      exact matchEnvAlt_bounds hs
    | none => rw [hs] at h; exact ih h

lemma envTokAt_bounds {text kw : List Char} {i : Nat} {n : List Char} {k : Nat}
    (h : envTokAt text kw i = some (n, k)) : i < k ∧ k ≤ text.length := by
  unfold envTokAt at h
  cases hlit : litFrom text kw i with
  | none => rw [hlit] at h; cases h
  | some j1 =>
    rw [hlit] at h
    simp only at h
    split at h
    · have hb := matchEnvAlts_bounds _ h
      have h1 := litFrom_le text kw i j1 hlit
      have h2 := wsFrom_le text j1
      have h3 := wsFrom_le text (wsFrom text j1 + 1)
      omega
    · cases h

lemma scanForAux_spec {α : Type} (f : Nat → Option α) (stop : Nat) :
    ∀ fuel i q a, scanForAux f stop fuel i = some (q, a) →
      i ≤ q ∧ q < stop ∧ f q = some a ∧ ∀ j, i ≤ j → j < q → f j = none := by
  intro fuel
  induction fuel with
  | zero => intro i q a h; cases h
  | succ m ih =>
    intro i q a h
    simp only [scanForAux] at h
    split at h
    · rename_i hi
      cases hf : f i with
      | some b =>
        rw [hf] at h
        injection h with h
        obtain ⟨rfl, rfl⟩ : i = q ∧ b = a := by
          constructor
          · exact congrArg Prod.fst h
          · exact congrArg Prod.snd h
        exact ⟨le_rfl, hi, hf, fun j h1 h2 => absurd (lt_of_le_of_lt h1 h2) (lt_irrefl _)⟩
      | none =>
        rw [hf] at h
        obtain ⟨h1, h2, h3, h4⟩ := ih (i + 1) q a h
        refine ⟨by omega, h2, h3, fun j hj1 hj2 => ?_⟩
        rcases Nat.eq_or_lt_of_le hj1 with rfl | hlt
        · exact hf
        · exact h4 j hlt hj2
    · cases h

lemma scanFor_spec {α : Type} {f : Nat → Option α} {stop i q : Nat} {a : α}
    (h : scanFor f stop i = some (q, a)) :
    i ≤ q ∧ q < stop ∧ f q = some a ∧ ∀ j, i ≤ j → j < q → f j = none :=
  scanForAux_spec f stop (stop + 1) i q a h

lemma extractRange_append (text : List Char) {a b c : Nat} (hab : a ≤ b) (hbc : b ≤ c) :
    extractRange text a b ++ extractRange text b c = extractRange text a c := by
  unfold extractRange
  rw [show c - a = (b - a) + (c - b) by omega, List.take_add]
  congr 1
  rw [List.drop_drop]
  have : a + (b - a) = b := by omega
  rw [this]

lemma splitProtAux_spec (text : List Char) :
    ∀ fuel pos, pos ≤ text.length →
      ((((splitProtAux text fuel pos).map
            (fun p => extractRange text p.2.1 p.2.2)).flatten
          = extractRange text pos text.length) ∧
        (∀ p ∈ splitProtAux text fuel pos, p.1 = true →
          ∃ n1 r n2 j, beginTokAt text p.2.1 = some (n1, r) ∧ r ≤ j ∧ j < p.2.2 ∧
            endTokAt text j = some (n2, p.2.2) ∧
            ∀ j', r ≤ j' → j' < j → endTokAt text j' = none)) := by
  intro fuel
  induction fuel with
  | zero =>
    intro pos _
    refine ⟨by simp [splitProtAux], ?_⟩
    intro p hp htrue
    simp only [splitProtAux, List.mem_singleton] at hp
    subst hp; cases htrue
  | succ m ih =>
    intro pos hpos
    simp only [splitProtAux]
    cases hb : scanFor (beginTokAt text) text.length pos with
    | none =>
      simp only [hb]
      refine ⟨by simp, ?_⟩
      intro p hp htrue
      simp only [List.mem_singleton] at hp
      subst hp; cases htrue
    | some qa =>
      obtain ⟨q, n1, r⟩ := qa
      simp only [hb]
      obtain ⟨hq1, hq2, hq3, _⟩ := scanFor_spec hb
      obtain ⟨hqr, hrlen⟩ := envTokAt_bounds hq3
      cases he : scanFor (endTokAt text) text.length r with
      | none =>
        simp only [he]
        refine ⟨by simp, ?_⟩
        intro p hp htrue
        simp only [List.mem_singleton] at hp
        subst hp; cases htrue
      | some ja =>
        obtain ⟨j, n2, k⟩ := ja
        simp only [he]
        obtain ⟨hj1, hj2, hj3, hj4⟩ := scanFor_spec he
        obtain ⟨hjk, hklen⟩ := envTokAt_bounds hj3
        obtain ⟨ihjoin, ihprot⟩ := ih k hklen
        constructor
        · simp only [List.map_cons, List.flatten_cons]
          rw [ihjoin]
          rw [extractRange_append text (by omega) hklen,
            extractRange_append text (by omega) (by omega)]
        · intro p hp htrue
          rcases List.mem_cons.mp hp with rfl | hp2
          · cases htrue
          rcases List.mem_cons.mp hp2 with rfl | hp3
          · exact ⟨n1, r, n2, j, hq3, hj1, hjk, hj3, fun j' h1 h2 => hj4 j' h1 h2⟩
          · exact ihprot p hp3 htrue

/-- Claim C2, amended: the splitter cuts the text into spans that
concatenate back to the whole text, and every protected span is a complete
region running from a begin token of some environment-name alternative to
the end of the first end token after it, where the begin and end names are
matched independently against the (unescaped, so starred names act as
quantified letters) alternation: the end's name need not equal the
begin's. -/
theorem splitProtected_spans (text : List Char) :
    (((splitProtected text).map (fun p => extractRange text p.2.1 p.2.2)).flatten = text) ∧
    (∀ p ∈ splitProtected text, p.1 = true →
      ∃ n1 r n2 j, beginTokAt text p.2.1 = some (n1, r) ∧ r ≤ j ∧ j < p.2.2 ∧
        endTokAt text j = some (n2, p.2.2) ∧
        ∀ j', r ≤ j' → j' < j → endTokAt text j' = none) := by
  obtain ⟨h1, h2⟩ := splitProtAux_spec text (text.length + 1) 0 (Nat.zero_le _)
  refine ⟨?_, h2⟩
  rw [splitProtected, h1]
  unfold extractRange
  simp

/-- The input refuting the begin/end name-equality part of C2. -/
def c2Input : List Char := "\\begin\x7bfigure\x7dx\\end\x7btable\x7dy".data

/-- Counterexample to C2 as stated: the splitter recognizes
`\begin{figure}x\end{table}` as one protected span although the matched
end's environment name (`table`) differs from the matched begin's
(`figure`). -/
theorem splitProtected_name_mismatch_counterexample :
    (true, 0, 26) ∈ splitProtected c2Input ∧
    extractRange c2Input 0 26 = "\\begin\x7bfigure\x7dx\\end\x7btable\x7d".data ∧
    beginTokAt c2Input 0 = some ("figure".data, 14) ∧
    endTokAt c2Input 15 = some ("table".data, 26) ∧
    ("figure".data : List Char) ≠ ("table".data : List Char) := by
  decide

/-- Witness for the amended C2 at the concrete split of `c2Input`: the
protected span `(0, 26)` decomposes as a begin token, a middle without any
end token, and the first end token. -/
theorem splitProtected_spans_witness :
    ∃ n1 r n2 j, beginTokAt c2Input 0 = some (n1, r) ∧ r ≤ j ∧ j < 26 ∧
      endTokAt c2Input j = some (n2, 26) ∧
      ∀ j', r ≤ j' → j' < j → endTokAt c2Input j' = none :=
  (splitProtected_spans c2Input).2 (true, 0, 26) (by decide) rfl

/-! ## 4.2 Comment Stripper, block comments, and 4.3 Recursive Merger
(`merge_tex_files`) -/

/-- Match `\KW\s*\{\s*comment\s*\}` at the head, returning the rest
(`KW` is `begin` or `end`). -/
def commentTokL (kw : List Char) (l : List Char) : Option (List Char) :=
  match matchLit kw l with
  | none => none
  | some r1 =>
    match skipWsL r1 with
    | [] => none
    | b :: r2 =>
      if b = '\x7b' then
        match matchLit ("comment".data) (skipWsL r2) with
        | none => none
        | some r4 =>
          match skipWsL r4 with
          | [] => none
          | b2 :: r5 => if b2 = '\x7d' then some r5 else none
      else none

/-- The lazy `.*?\\end\s*\{\s*comment\s*\}` under DOTALL: scan for the
first completed end-of-comment token and return the rest. -/
def findEndComment : Nat → List Char → Option (List Char)
  | 0, _ => none
  | _, [] => none
  | fuel + 1, c :: t =>
    match commentTokL ("\\end".data) (c :: t) with
    | some r => some r
    | none => findEndComment fuel t

/-- `RE_BLOCK_COMMENT.sub("", s)` where
`RE_BLOCK_COMMENT = \begin\s*\{\s*comment\s*\}.*?\end\s*\{\s*comment\s*\}\s*\n?`
(DOTALL): remove every block-comment environment together with the
whitespace run following it (the greedy `\s*` swallows any trailing
newlines, leaving the optional `\n` empty). A begin-of-comment token with
no matching end is left in place, as the regex finds no match there. -/
def blockSubAux : Nat → List Char → List Char
  | 0, l => l
  | _, [] => []
  | fuel + 1, c :: t =>
    match commentTokL ("\\begin".data) (c :: t) with
    | some r1 =>
      match findEndComment (r1.length + 1) r1 with
      | some r2 => blockSubAux fuel (skipWsL r2)
      | none => c :: blockSubAux fuel t
    | none => c :: blockSubAux fuel t

def blockCommentSub (l : List Char) : List Char := blockSubAux (l.length + 1) l

/-- The comment stripping performed per merged file: line comments first,
then block-comment environments. -/
def stripComments (content : List Char) : List Char :=
  blockCommentSub (lineCommentSub content)

/-- `\\(?:input|include)` at the head. -/
def matchInputKw (l : List Char) : Option (List Char) :=
  match matchLit ("\\input".data) l with
  | some r => some r
  | none => matchLit ("\\include".data) l

/-- One match attempt of `RE_INPUT = \\(?:input|include)\s*\{\s*(.*?)\s*\}`
at the head: the trimmed brace argument and the rest after the closing
brace. -/
def matchInputCmd (l : List Char) : Option (List Char × List Char) :=
  match matchInputKw l with
  | none => none
  | some r1 =>
    match skipWsL r1 with
    | [] => none
    | b :: r2 => if b = '\x7b' then braceArgSplit r2.length [] r2 else none

/-- Does any inclusion command match anywhere in the text? -/
def hasInputCmd : List Char → Bool
  | [] => false
  | c :: t => (matchInputCmd (c :: t)).isSome || hasInputCmd t

/-- A file path, as a list of components; `Path` equality in the
`processed_files` set is equality of the constructed components. -/
abbrev MPath := List String

/-- `Path.name`: the last component. -/
def pathNameOf (p : MPath) : String := (p.getLast?).getD ""

/-- Rendering of a path into a placeholder message. -/
def renderPath : MPath → List Char
  | [] => []
  | [s] => s.data
  | s :: rest => s.data ++ '/' :: renderPath rest

def skipPlaceholder (p : MPath) : List Char :=
  "% --- SKIPPING RECURSIVE INCLUDE OF ".data ++ (pathNameOf p).data ++ " ---\n".data

def notFoundPlaceholder (p : MPath) : List Char :=
  "% --- FILE NOT FOUND: ".data ++ renderPath p ++ " ---\n".data

def inclNotFoundPlaceholder (fname : List Char) : List Char :=
  "% --- INCLUDED FILE NOT FOUND: ".data ++ fname ++ " ---\n".data

/-- The project's file system: resolved paths with their contents; lookup
is `Path.exists` plus `open().read()`. -/
def fsLookup (fs : List (MPath × List Char)) (p : MPath) : Option (List Char) :=
  match fs with
  | [] => none
  | (q, c) :: rest => if q = p then some c else fsLookup rest p

def endsWithTex (n : List Char) : Bool := startsWithL ("xet.".data) n.reverse

/-- The normalized file name of an inclusion reference:
`included_filename`, with `.tex` appended when no such suffix is there. -/
def texName (nm : List Char) : List Char :=
  if endsWithTex nm then nm else nm ++ (".tex".data)

/-- Resolution of an inclusion target: first relative to the including
file's directory, else relative to the project root; `some` exactly when
the resolved path exists. -/
def includeTarget (fs : List (MPath × List Char)) (root curPath : MPath)
    (fname : List Char) : Option MPath :=
  let relP := curPath.dropLast ++ [String.mk fname]
  let rootP := root ++ [String.mk fname]
  let finalP := if (fsLookup fs relP).isSome then relP else rootP
  if (fsLookup fs finalP).isSome then some finalP else none

/-- The `RE_INPUT.sub(replace_input, ...)` pass: scan the stripped content
left to right; each inclusion-command match is replaced by the recursively
merged content of its resolved target, or by a not-found placeholder
comment; the `processed_files` state threads through the replacements in
order. `recur` is the recursive merge at one lower fuel. -/
def replaceInputs (fs : List (MPath × List Char)) (root : MPath)
    (recur : MPath → List MPath → Option (List Char × List MPath))
    (curPath : MPath) :
    Nat → List Char → List MPath → Option (List Char × List MPath)
  | 0, _, _ => none
  | _ + 1, [], visited => some ([], visited)
  | fuel + 1, c :: t, visited =>
    match matchInputCmd (c :: t) with
    | none =>
      match replaceInputs fs root recur curPath fuel t visited with
      | none => none
      | some (out, v') => some (c :: out, v')
    | some (nm, rest) =>
      match includeTarget fs root curPath (texName nm) with
      | some finalP =>
        match recur finalP visited with
        | none => none
        | some (m, v') =>
          match replaceInputs fs root recur curPath fuel rest v' with
          | none => none
          | some (out, v'') => some (m ++ out, v'')
      | none =>
        match replaceInputs fs root recur curPath fuel rest visited with
        | none => none
        | some (out, v') => some (inclNotFoundPlaceholder (texName nm) ++ out, v')

/-- `merge_tex_files(tex_file_path, project_root, processed_files)`,
fuel-indexed: a path already in the visited set yields the
skipping-recursive-include placeholder; otherwise the path is added to the
visited set *before* its content is read; a missing file yields a
placeholder; otherwise the content is comment-stripped and its inclusion
commands are replaced recursively. `none` means the fuel ran out. -/
def mergeTexFiles (fs : List (MPath × List Char)) (root : MPath) :
    Nat → MPath → List MPath → Option (List Char × List MPath)
  | 0, _, _ => none
  | fuel + 1, path, visited =>
    if path ∈ visited then some (skipPlaceholder path, visited)
    else
      let visited' := path :: visited
      match fsLookup fs path with
      | none => some (notFoundPlaceholder path, visited')
      | some content =>
        let stripped := stripComments content
        replaceInputs fs root (mergeTexFiles fs root fuel) path
          (stripped.length + 1) stripped visited'

lemma matchLit_suffix (p : List Char) :
    ∀ l r, matchLit p l = some r → r <:+ l := by
  induction p with
  | nil =>
    intro l r h
    injection h with h
    subst h
    exact List.suffix_rfl
  | cons c cs ih =>
    intro l r h
    cases l with
    | nil => cases h
    | cons x t =>
      simp only [matchLit] at h
      split at h
      · exact (ih t r h).trans (List.suffix_cons x t)
      · cases h

lemma matchLit_length (p : List Char) :
    ∀ l r, matchLit p l = some r → r.length + p.length = l.length := by
  induction p with
  | nil =>
    intro l r h
    injection h with h
    subst h
    simp
  | cons c cs ih =>
    intro l r h
    cases l with
    | nil => cases h
    | cons x t =>
      simp only [matchLit] at h
      split at h
      · have := ih t r h
        simp only [List.length_cons]
        omega
      · cases h

lemma skipWsL_suffix (l : List Char) : skipWsL l <:+ l :=
  List.dropWhile_suffix isWs

lemma stripWs_subset {ch : Char} {l : List Char} (h : ch ∈ stripWs l) : ch ∈ l := by
  unfold stripWs at h
  rw [List.mem_reverse] at h
  have h2 := (List.dropWhile_suffix isWs).subset h
  rw [List.mem_reverse] at h2
  exact (List.dropWhile_suffix isWs).subset h2

lemma braceArgSplit_props :
    ∀ (fuel : Nat) (acc l g rest : List Char),
      braceArgSplit fuel acc l = some (g, rest) →
      (rest <:+ l ∧ rest.length < l.length ∧ ∀ ch ∈ g, ch ∈ acc ∨ ch ∈ l) := by
  intro fuel
  induction fuel with
  | zero => intro acc l g rest h; simp [braceArgSplit] at h
  | succ m ih =>
    intro acc l g rest h
    cases l with
    | nil => simp [braceArgSplit] at h
    | cons c t =>
      simp only [braceArgSplit] at h
      split at h
      · split at h
        · obtain ⟨h1, h2, h3⟩ := ih (c :: acc) t g rest h
          refine ⟨h1.trans (List.suffix_cons c t), by simp only [List.length_cons]; omega, ?_⟩
          intro ch hch
          rcases h3 ch hch with hmem | hmem
          · rcases List.mem_cons.mp hmem with rfl | hmem2
            · right; exact List.mem_cons_self _ _
            · left; exact hmem2
          · right; exact List.mem_cons_of_mem c hmem
        · injection h with h
          have hg : g = stripWs acc.reverse := (congrArg Prod.fst h).symm
          have hr : rest = t := (congrArg Prod.snd h).symm
          refine ⟨hr ▸ List.suffix_cons c t, by rw [hr]; simp, ?_⟩
          intro ch hch
          rw [hg] at hch
          left
          have := stripWs_subset hch
          rwa [List.mem_reverse] at this
      · obtain ⟨h1, h2, h3⟩ := ih (c :: acc) t g rest h
        refine ⟨h1.trans (List.suffix_cons c t), by simp only [List.length_cons]; omega, ?_⟩
        intro ch hch
        rcases h3 ch hch with hmem | hmem
        · rcases List.mem_cons.mp hmem with rfl | hmem2
          · right; exact List.mem_cons_self _ _
          · left; exact hmem2
        · right; exact List.mem_cons_of_mem c hmem

lemma matchInputKw_bounds {l r1 : List Char} (hkw : matchInputKw l = some r1) :
    r1 <:+ l ∧ r1.length < l.length := by
  unfold matchInputKw at hkw
  cases h6 : matchLit ("\\input".data) l with
  | some r =>
    rw [h6] at hkw
    have hkw2 : r = r1 := by injection hkw
    rw [hkw2] at h6
    have hs := matchLit_suffix _ l r1 h6
    have hl := matchLit_length _ l r1 h6
    refine ⟨hs, ?_⟩
    have e6 : (("\\input".data : List Char)).length = 6 := by decide
    omega
  | none =>
    rw [h6] at hkw
    have hs := matchLit_suffix _ l r1 hkw
    have hl := matchLit_length _ l r1 hkw
    refine ⟨hs, ?_⟩
    have e8 : (("\\include".data : List Char)).length = 8 := by decide
    omega

lemma matchInputCmd_props {l nm rest : List Char}
    (h : matchInputCmd l = some (nm, rest)) :
    rest <:+ l ∧ rest.length < l.length ∧ ∀ ch ∈ nm, ch ∈ l := by
  unfold matchInputCmd at h
  cases hkw : matchInputKw l with
  | none => simp only [hkw] at h; cases h
  | some r1 =>
    simp only [hkw] at h
    have hr1 := matchInputKw_bounds hkw
    cases hws : skipWsL r1 with
    | nil => simp only [hws] at h; cases h
    | cons b r2 =>
      simp only [hws] at h
      by_cases hb : b = '\x7b'
      · rw [if_pos hb] at h
        have hr2 : r2 <:+ l ∧ r2.length < l.length := by
          have hsws : (b :: r2) <:+ r1 := hws ▸ skipWsL_suffix r1
          have hr2c : r2 <:+ (b :: r2) := List.suffix_cons _ _
          refine ⟨(hr2c.trans hsws).trans hr1.1, ?_⟩
          have hlen := hsws.length_le
          simp only [List.length_cons] at hlen
          omega
        obtain ⟨h1, h2, h3⟩ := braceArgSplit_props r2.length [] r2 nm rest h
        refine ⟨h1.trans hr2.1, by omega, ?_⟩
        intro ch hch
        rcases h3 ch hch with hmem | hmem
        · cases hmem
        · exact hr2.1.subset hmem
      · rw [if_neg hb] at h
        cases h

lemma subset_cons_self' {α : Type} (a : α) (l : List α) : l ⊆ a :: l :=
  fun _ hx => List.mem_cons_of_mem a hx

/-- The replacement pass only ever grows the visited set. -/
lemma replaceInputs_mono (fs : List (MPath × List Char)) (root : MPath)
    (recur : MPath → List MPath → Option (List Char × List MPath)) (curPath : MPath)
    (hrec : ∀ q w out w', recur q w = some (out, w') → w ⊆ w') :
    ∀ fuel text v out v',
      replaceInputs fs root recur curPath fuel text v = some (out, v') → v ⊆ v' := by
  intro fuel
  induction fuel with
  | zero => intro text v out v' h; cases h
  | succ m ih =>
    intro text v out v' h
    cases text with
    | nil =>
      simp only [replaceInputs] at h
      injection h with h
      have hv : v = v' := congrArg Prod.snd h
      exact hv ▸ List.Subset.refl v
    | cons c t =>
      simp only [replaceInputs] at h
      cases hm : matchInputCmd (c :: t) with
      | none =>
        simp only [hm] at h
        cases hrest : replaceInputs fs root recur curPath m t v with
        | none => simp only [hrest] at h; cases h
        | some p =>
          obtain ⟨out2, v2⟩ := p
          simp only [hrest] at h
          injection h with h
          have hv : v2 = v' := congrArg Prod.snd h
          exact hv ▸ ih t v out2 v2 hrest
      | some p =>
        obtain ⟨nm, rest⟩ := p
        simp only [hm] at h
        cases ht : includeTarget fs root curPath (texName nm) with
        | some finalP =>
          simp only [ht] at h
          cases hr : recur finalP v with
          | none => simp only [hr] at h; cases h
          | some p2 =>
            obtain ⟨mout, v1⟩ := p2
            simp only [hr] at h
            cases hrest : replaceInputs fs root recur curPath m rest v1 with
            | none => simp only [hrest] at h; cases h
            | some p3 =>
              obtain ⟨out3, v3⟩ := p3
              simp only [hrest] at h
              injection h with h
              have hv : v3 = v' := congrArg Prod.snd h
              exact hv ▸ List.Subset.trans (hrec finalP v mout v1 hr) (ih rest v1 out3 v3 hrest)
        | none =>
          simp only [ht] at h
          cases hrest : replaceInputs fs root recur curPath m rest v with
          | none => simp only [hrest] at h; cases h
          | some p3 =>
            obtain ⟨out3, v3⟩ := p3
            simp only [hrest] at h
            injection h with h
            have hv : v3 = v' := congrArg Prod.snd h
            exact hv ▸ ih rest v out3 v3 hrest

/-- The merge only ever grows the visited set. -/
lemma mergeTexFiles_mono (fs : List (MPath × List Char)) (root : MPath) :
    ∀ fuel path v out v',
      mergeTexFiles fs root fuel path v = some (out, v') → v ⊆ v' := by
  intro fuel
  induction fuel with
  | zero => intro path v out v' h; cases h
  | succ m ih =>
    intro path v out v' h
    simp only [mergeTexFiles] at h
    split at h
    · injection h with h
      have hv : v = v' := congrArg Prod.snd h
      exact hv ▸ List.Subset.refl v
    · cases hl : fsLookup fs path with
      | none =>
        simp only [hl] at h
        injection h with h
        have hv : path :: v = v' := congrArg Prod.snd h
        exact hv ▸ subset_cons_self' path v
      | some content =>
        simp only [hl] at h
        have hmono := replaceInputs_mono fs root (mergeTexFiles fs root m) path
          (fun q w out w' => ih q w out w') _ _ _ _ _ h
        exact List.Subset.trans (subset_cons_self' path v) hmono

/-- The domain of the project file system. -/
def fsPaths (fs : List (MPath × List Char)) : List MPath := fs.map Prod.fst

/-- Termination measure: the number of distinct project files not yet
visited. -/
def mergeMeasure (fs : List (MPath × List Char)) (v : List MPath) : Nat :=
  ((fsPaths fs).dedup.filter (fun p => decide (p ∉ v))).length

lemma length_filter_mono {α : Type} (p q : α → Bool) (l : List α)
    (h : ∀ x ∈ l, p x = true → q x = true) :
    (l.filter p).length ≤ (l.filter q).length := by
  induction l with
  | nil => simp
  | cons c t ih =>
    have iht := ih (fun x hx => h x (List.mem_cons_of_mem c hx))
    by_cases hp : p c = true
    · rw [List.filter_cons_of_pos hp, List.filter_cons_of_pos (h c (List.mem_cons_self c t) hp)]
      simpa using iht
    · rw [List.filter_cons_of_neg (by simpa using hp)]
      by_cases hq : q c = true
      · rw [List.filter_cons_of_pos hq]
        simp only [List.length_cons]
        omega
      · rw [List.filter_cons_of_neg (by simpa using hq)]
        exact iht

lemma mergeMeasure_le_of_subset {fs : List (MPath × List Char)} {v w : List MPath}
    (h : v ⊆ w) : mergeMeasure fs w ≤ mergeMeasure fs v := by
  unfold mergeMeasure
  apply length_filter_mono
  intro x _ hx
  simp only [decide_eq_true_eq] at hx ⊢
  intro hmem
  exact hx (h hmem)

lemma fsLookup_mem {fs : List (MPath × List Char)} {p : MPath} {c : List Char}
    (h : fsLookup fs p = some c) : p ∈ fsPaths fs := by
  induction fs with
  | nil => cases h
  | cons e rest ih =>
    obtain ⟨q, cc⟩ := e
    simp only [fsLookup] at h
    split at h
    · rename_i hq
      simp [fsPaths, hq]
    · have := ih h
      simp only [fsPaths, List.map_cons, List.mem_cons]
      right
      simpa [fsPaths] using this

lemma mergeMeasure_cons_lt {fs : List (MPath × List Char)} {p : MPath} {v : List MPath}
    (hp : p ∈ fsPaths fs) (hv : p ∉ v) :
    mergeMeasure fs (p :: v) < mergeMeasure fs v := by
  unfold mergeMeasure
  set D := (fsPaths fs).dedup with hD
  have hnodup : D.Nodup := (fsPaths fs).nodup_dedup
  have hpD : p ∈ D := List.mem_dedup.mpr hp
  set A := D.filter (fun x => decide (x ∉ v)) with hA
  have hpA : p ∈ A := by
    rw [hA, List.mem_filter]
    exact ⟨hpD, by simpa using hv⟩
  have hAnodup : A.Nodup := hnodup.filter _
  have hstep : D.filter (fun x => decide (x ∉ p :: v)) = A.filter (fun x => x != p) := by
    rw [hA, List.filter_filter]
    apply List.filter_congr
    intro x _
    by_cases h1 : x = p
    · subst h1; simp
    · by_cases h2 : x ∈ v
      · simp [h1, h2]
      · simp [h1, h2]
  rw [hstep, ← hAnodup.erase_eq_filter p, List.length_erase_of_mem hpA]
  have : A.length ≠ 0 := by
    intro hlen
    rw [List.length_eq_zero] at hlen
    rw [hlen] at hpA
    cases hpA
  omega

/-- The replacement pass succeeds whenever its fuel exceeds the text length
and the recursive merge succeeds on every call it makes. -/
lemma replaceInputs_isSome (fs : List (MPath × List Char)) (root : MPath)
    (recur : MPath → List MPath → Option (List Char × List MPath)) (curPath : MPath)
    (v0 : List MPath)
    (hmono : ∀ q w out w', recur q w = some (out, w') → w ⊆ w')
    (hsome : ∀ q w, v0 ⊆ w → (recur q w).isSome = true) :
    ∀ fuel text v, text.length < fuel → v0 ⊆ v →
      (replaceInputs fs root recur curPath fuel text v).isSome = true := by
  intro fuel
  induction fuel with
  | zero => intro text v h _; exact absurd h (Nat.not_lt_zero _)
  | succ m ih =>
    intro text v hlen hv0
    cases text with
    | nil => simp [replaceInputs]
    | cons c t =>
      simp only [replaceInputs]
      cases hm : matchInputCmd (c :: t) with
      | none =>
        have ht := ih t v (by simp only [List.length_cons] at hlen; omega) hv0
        cases hrest : replaceInputs fs root recur curPath m t v with
        | none => rw [hrest] at ht; cases ht
        | some p => obtain ⟨o2, v2⟩ := p; simp [hrest]
      | some p =>
        obtain ⟨nm, rest⟩ := p
        have hrl := (matchInputCmd_props hm).2.1
        simp only [List.length_cons] at hlen hrl
        cases htg : includeTarget fs root curPath (texName nm) with
        | some finalP =>
          have hrec := hsome finalP v hv0
          cases hr : recur finalP v with
          | none => rw [hr] at hrec; cases hrec
          | some p2 =>
            obtain ⟨mo, v1⟩ := p2
            have hv1 : v0 ⊆ v1 := List.Subset.trans hv0 (hmono _ _ _ _ hr)
            have ht := ih rest v1 (by omega) hv1
            cases hrest : replaceInputs fs root recur curPath m rest v1 with
            | none => rw [hrest] at ht; cases ht
            | some p3 =>
              obtain ⟨o3, v3⟩ := p3
              simp [htg, hr, hrest]
        | none =>
          have ht := ih rest v (by omega) hv0
          cases hrest : replaceInputs fs root recur curPath m rest v with
          | none => rw [hrest] at ht; cases ht
          | some p3 =>
            obtain ⟨o3, v3⟩ := p3
            simp [htg, hrest]

/-- The merge succeeds whenever the fuel exceeds the number of distinct
unvisited project files. -/
lemma mergeTexFiles_isSome (fs : List (MPath × List Char)) (root : MPath) :
    ∀ mb fuel path v, mergeMeasure fs v ≤ mb → mb < fuel →
      (mergeTexFiles fs root fuel path v).isSome = true := by
  intro mb
  induction mb using Nat.strong_induction_on with
  | _ mb ihm =>
    intro fuel path v hmeas hfuel
    obtain ⟨f, rfl⟩ : ∃ f, fuel = f + 1 := ⟨fuel - 1, by omega⟩
    simp only [mergeTexFiles]
    split
    · simp
    · rename_i hnotin
      cases hl : fsLookup fs path with
      | none => simp [hl]
      | some content =>
        simp only [hl]
        have hmem : path ∈ fsPaths fs := fsLookup_mem hl
        have hlt : mergeMeasure fs (path :: v) < mergeMeasure fs v :=
          mergeMeasure_cons_lt hmem hnotin
        apply replaceInputs_isSome fs root (mergeTexFiles fs root f) path (path :: v)
        · exact fun q w out w' hq => mergeTexFiles_mono fs root f q w out w' hq
        · intro q w hw
          have hle : mergeMeasure fs w ≤ mergeMeasure fs (path :: v) :=
            mergeMeasure_le_of_subset hw
          exact ihm (mb - 1) (by omega) f q w (by omega) (by omega)
        · exact Nat.lt_succ_self _
        · exact List.Subset.refl _

/-- Two replacement passes agree when their recursive merges agree on all
visited-set supersets reached during the pass. -/
lemma replaceInputs_congr (fs : List (MPath × List Char)) (root : MPath)
    (recur1 recur2 : MPath → List MPath → Option (List Char × List MPath))
    (curPath : MPath) (v0 : List MPath)
    (hmono : ∀ q w out w', recur1 q w = some (out, w') → w ⊆ w')
    (heq : ∀ q w, v0 ⊆ w → recur1 q w = recur2 q w) :
    ∀ fuel text v, v0 ⊆ v →
      replaceInputs fs root recur1 curPath fuel text v =
        replaceInputs fs root recur2 curPath fuel text v := by
  intro fuel
  induction fuel with
  | zero => intro text v _; rfl
  | succ m ih =>
    intro text v hv0
    cases text with
    | nil => rfl
    | cons c t =>
      simp only [replaceInputs]
      cases hm : matchInputCmd (c :: t) with
      | none =>
        simp only [hm]
        rw [ih t v hv0]
      | some p =>
        obtain ⟨nm, rest⟩ := p
        simp only [hm]
        cases htg : includeTarget fs root curPath (texName nm) with
        | some finalP =>
          simp only [htg]
          rw [← heq finalP v hv0]
          cases hr : recur1 finalP v with
          | none => simp only [hr]
          | some p2 =>
            obtain ⟨mo, v1⟩ := p2
            simp only [hr]
            have hv1 : v0 ⊆ v1 := List.Subset.trans hv0 (hmono _ _ _ _ hr)
            rw [ih rest v1 hv1]
        | none =>
          simp only [htg]
          rw [ih rest v hv0]

/-- The merged output does not depend on the fuel, once the fuel exceeds
the number of distinct unvisited project files: the fuel-indexed merge
stabilizes, i.e. the recursion terminates. -/
lemma mergeTexFiles_fuel_eq (fs : List (MPath × List Char)) (root : MPath) :
    ∀ mb f1 f2 path v, mergeMeasure fs v ≤ mb → mb < f1 → mb < f2 →
      mergeTexFiles fs root f1 path v = mergeTexFiles fs root f2 path v := by
  intro mb
  induction mb using Nat.strong_induction_on with
  | _ mb ihm =>
    intro f1 f2 path v hmeas h1 h2
    obtain ⟨a, rfl⟩ : ∃ a, f1 = a + 1 := ⟨f1 - 1, by omega⟩
    obtain ⟨b, rfl⟩ : ∃ b, f2 = b + 1 := ⟨f2 - 1, by omega⟩
    simp only [mergeTexFiles]
    split
    · rfl
    · rename_i hnotin
      cases hl : fsLookup fs path with
      | none => simp only [hl]
      | some content =>
        simp only [hl]
        have hmem : path ∈ fsPaths fs := fsLookup_mem hl
        have hlt : mergeMeasure fs (path :: v) < mergeMeasure fs v :=
          mergeMeasure_cons_lt hmem hnotin
        apply replaceInputs_congr fs root (mergeTexFiles fs root a) (mergeTexFiles fs root b)
          path (path :: v)
        · exact fun q w out w' hq => mergeTexFiles_mono fs root a q w out w' hq
        · intro q w hw
          have hle : mergeMeasure fs w ≤ mergeMeasure fs (path :: v) :=
            mergeMeasure_le_of_subset hw
          exact ihm (mb - 1) (by omega) a b q w (by omega) (by omega) (by omega)
        · exact List.Subset.refl _

lemma mergeMeasure_le (fs : List (MPath × List Char)) (v : List MPath) :
    mergeMeasure fs v ≤ fs.length := by
  unfold mergeMeasure
  calc ((fsPaths fs).dedup.filter _).length
      ≤ (fsPaths fs).dedup.length := ((fsPaths fs).dedup.filter_sublist).length_le
    _ ≤ (fsPaths fs).length := (fsPaths fs).dedup_sublist.length_le
    _ = fs.length := by simp [fsPaths]

/-- Claim C4: for every project (cyclic inclusions of any length included),
the merge terminates: the fuel-indexed `merge_tex_files` stabilizes at fuel
`|fs| + 1` and succeeds; and a call on a path that is already in the
visited set (a re-entered cyclic file, which was added to the visited set
before its content was read) returns the skipping placeholder comment
instead of recursing. -/
theorem mergeTexFiles_terminates (fs : List (MPath × List Char)) (root path : MPath)
    (v : List MPath) :
    (∀ fuel, fs.length + 1 ≤ fuel →
      mergeTexFiles fs root fuel path v = mergeTexFiles fs root (fs.length + 1) path v) ∧
    (mergeTexFiles fs root (fs.length + 1) path v).isSome = true ∧
    (∀ fuel, 0 < fuel → path ∈ v →
      mergeTexFiles fs root fuel path v = some (skipPlaceholder path, v)) := by
  refine ⟨?_, ?_, ?_⟩
  · intro fuel hfuel
    exact mergeTexFiles_fuel_eq fs root fs.length fuel (fs.length + 1) path v
      (mergeMeasure_le fs v) (by omega) (by omega)
  · exact mergeTexFiles_isSome fs root fs.length (fs.length + 1) path v
      (mergeMeasure_le fs v) (by omega)
  · intro fuel hfuel hmem
    obtain ⟨f, rfl⟩ : ∃ f, fuel = f + 1 := ⟨fuel - 1, by omega⟩
    simp only [mergeTexFiles]
    rw [if_pos hmem]

/-- The two-file cyclic project used as the C4 witness. -/
def cycleFs : List (MPath × List Char) :=
  [([("a.tex" : String)], "A\\input\x7bb\x7d".data),
   ([("b.tex" : String)], "B\\input\x7ba\x7d".data)]

/-- Witness for C4 on a concrete two-file inclusion cycle: the merge
stabilizes and succeeds, and re-entry of the cyclic file yields the
skipping placeholder. -/
theorem mergeTexFiles_terminates_witness :
    (mergeTexFiles cycleFs [] (cycleFs.length + 2) [("a.tex" : String)] [] =
      mergeTexFiles cycleFs [] (cycleFs.length + 1) [("a.tex" : String)] []) ∧
    (mergeTexFiles cycleFs [] (cycleFs.length + 1) [("a.tex" : String)] []).isSome = true ∧
    mergeTexFiles cycleFs [] 1 [("a.tex" : String)] [[("a.tex" : String)]] =
      some (skipPlaceholder [("a.tex" : String)], [[("a.tex" : String)]]) :=
  ⟨(mergeTexFiles_terminates cycleFs [] [("a.tex" : String)] []).1 (cycleFs.length + 2)
      (by decide),
   (mergeTexFiles_terminates cycleFs [] [("a.tex" : String)] []).2.1,
   (mergeTexFiles_terminates cycleFs [] [("a.tex" : String)] [[("a.tex" : String)]]).2.2 1
      (by decide) (by decide)⟩

/-- The project refuting the literal reading of the merger's output
guarantee: merging `b.tex`'s content `ut\x7bx\x7d` into `a.tex` right after the
literal text `\inp` juxtaposes a fresh inclusion command `\input\x7bx\x7d` in
the output, and the unresolved `\input\x7bc\x7d` leaves a `%` comment marker. -/
def c3Fs : List (MPath × List Char) :=
  [([("a.tex" : String)], "\\inp\\input\x7bb\x7d\\input\x7bc\x7d".data),
   ([("b.tex" : String)], "ut\x7bx\x7d".data)]

theorem mergeTexFiles_leftover_counterexample :
    mergeTexFiles c3Fs [] 3 [("a.tex" : String)] [] =
      some (("\\input\x7bx\x7d% --- INCLUDED FILE NOT FOUND: c.tex ---\n".data),
        [[("b.tex" : String)], [("a.tex" : String)]]) ∧
    hasInputCmd ("\\input\x7bx\x7d% --- INCLUDED FILE NOT FOUND: c.tex ---\n".data) = true ∧
    '%' ∈ ("\\input\x7bx\x7d% --- INCLUDED FILE NOT FOUND: c.tex ---\n".data : List Char) := by
  decide

/-- Every occurrence of `%` in the text starts one of the merger's
placeholder comments: it is followed by at least the five characters
of the marker `space,dash,dash,dash,space`. -/
def MarkerOk (s : List Char) : Prop :=
  ∀ x y, s = x ++ '%' :: y → 5 ≤ y.length ∧ y.take 5 = (" --- ".data)

lemma markerOk_of_no_pct {s : List Char} (h : '%' ∉ s) : MarkerOk s := by
  intro x y hxy
  exact absurd (by rw [hxy]; exact List.mem_append_right x (List.mem_cons_self '%' y)) h

lemma markerOk_append {a b : List Char} (ha : MarkerOk a) (hb : MarkerOk b) :
    MarkerOk (a ++ b) := by
  intro x y hxy
  rcases List.append_eq_append_iff.mp hxy with ⟨a2, _, h2⟩ | ⟨c2, h1, h2⟩
  · exact hb a2 y h2
  · cases c2 with
    | nil =>
      simp only [List.nil_append] at h2
      exact hb [] y (by simpa using h2.symm)
    | cons d c3 =>
      rw [List.cons_append] at h2
      injection h2 with hd hy
      obtain ⟨hl5, ht5⟩ := ha x c3 (by rw [h1, ← hd])
      constructor
      · rw [hy, List.length_append]; omega
      · rw [hy, List.take_append_eq_append_take]
        have h0 : 5 - c3.length = 0 := by omega
        rw [h0, List.take_zero, List.append_nil, ht5]

lemma markerOk_pct_cons {z : List Char} (hlen : 5 ≤ z.length)
    (h5 : z.take 5 = (" --- ".data)) (hz : '%' ∉ z) : MarkerOk ('%' :: z) := by
  intro x y hxy
  cases x with
  | nil =>
    simp only [List.nil_append] at hxy
    injection hxy with _ h2
    rw [← h2]
    exact ⟨hlen, h5⟩
  | cons d xs =>
    rw [List.cons_append] at hxy
    injection hxy with h1 h2
    exact absurd (by rw [h2]; exact List.mem_append_right xs (List.mem_cons_self '%' y)) hz

lemma markerOk_marker_pre (pre rest : List Char)
    (hlen : 5 ≤ pre.length) (h5 : pre.take 5 = (" --- ".data))
    (hpre : '%' ∉ pre) (hrest : '%' ∉ rest) :
    MarkerOk ('%' :: (pre ++ rest)) := by
  apply markerOk_pct_cons
  · rw [List.length_append]; omega
  · rw [List.take_append_eq_append_take]
    have h0 : 5 - pre.length = 0 := by omega
    rw [h0, List.take_zero, List.append_nil, h5]
  · intro hm
    rcases List.mem_append.mp hm with h1 | h2
    · exact hpre h1
    · exact hrest h2

lemma markerOk_skipPlaceholder (p : MPath) (h : '%' ∉ (pathNameOf p).data) :
    MarkerOk (skipPlaceholder p) := by
  have e1 : ("% --- SKIPPING RECURSIVE INCLUDE OF ".data : List Char) =
      '%' :: (" --- SKIPPING RECURSIVE INCLUDE OF ".data) := by decide
  have e : skipPlaceholder p =
      '%' :: ((" --- SKIPPING RECURSIVE INCLUDE OF ".data) ++
        ((pathNameOf p).data ++ (" ---\n".data))) := by
    unfold skipPlaceholder
    rw [e1]
    simp [List.cons_append, List.append_assoc]
  rw [e]
  apply markerOk_marker_pre
  · decide
  · decide
  · decide
  · intro hm
    rcases List.mem_append.mp hm with h1 | h2
    · exact h h1
    · exact absurd h2 (by decide)

lemma markerOk_notFoundPlaceholder (p : MPath) (h : '%' ∉ renderPath p) :
    MarkerOk (notFoundPlaceholder p) := by
  have e1 : ("% --- FILE NOT FOUND: ".data : List Char) =
      '%' :: (" --- FILE NOT FOUND: ".data) := by decide
  have e : notFoundPlaceholder p =
      '%' :: ((" --- FILE NOT FOUND: ".data) ++ (renderPath p ++ (" ---\n".data))) := by
    unfold notFoundPlaceholder
    rw [e1]
    simp [List.cons_append, List.append_assoc]
  rw [e]
  apply markerOk_marker_pre
  · decide
  · decide
  · decide
  · intro hm
    rcases List.mem_append.mp hm with h1 | h2
    · exact h h1
    · exact absurd h2 (by decide)

lemma markerOk_inclNotFoundPlaceholder (fname : List Char) (h : '%' ∉ fname) :
    MarkerOk (inclNotFoundPlaceholder fname) := by
  have e1 : ("% --- INCLUDED FILE NOT FOUND: ".data : List Char) =
      '%' :: (" --- INCLUDED FILE NOT FOUND: ".data) := by decide
  have e : inclNotFoundPlaceholder fname =
      '%' :: ((" --- INCLUDED FILE NOT FOUND: ".data) ++ (fname ++ (" ---\n".data))) := by
    unfold inclNotFoundPlaceholder
    rw [e1]
    simp [List.cons_append, List.append_assoc]
  rw [e]
  apply markerOk_marker_pre
  · decide
  · decide
  · decide
  · intro hm
    rcases List.mem_append.mp hm with h1 | h2
    · exact h h1
    · exact absurd h2 (by decide)

/-- Line-comment removal only deletes characters. -/
lemma lineSubAux_subset : ∀ (l : List Char) (m : Bool) (prev : Option Char),
    lineSubAux m prev l ⊆ l := by
  intro l
  induction l with
  | nil =>
    intro m prev
    rw [lineSubAux_nil]
    exact List.nil_subset _
  | cons c t ih =>
    intro m prev
    cases m with
    | false =>
      by_cases hcp : c = '%' ∧ prev ≠ some '\\'
      · rw [hcp.1, lineSubAux_pct prev t hcp.2]
        exact (ih true prev).trans (subset_cons_self' _ _)
      · rw [lineSubAux_other prev c t hcp]
        exact List.cons_subset_cons c (ih false (some c))
    | true =>
      by_cases hn : c = '\n'
      · have e : lineSubAux true prev (c :: t) = lineSubAux false (some '\n') t := by
          simp [lineSubAux, hn]
        rw [e]
        exact (ih false (some '\n')).trans (subset_cons_self' c t)
      · have e : lineSubAux true prev (c :: t) = lineSubAux true prev t := by
          simp [lineSubAux, hn]
        rw [e]
        exact (ih true prev).trans (subset_cons_self' c t)

lemma commentTokL_suffix {kw l r : List Char} (h : commentTokL kw l = some r) : r <:+ l := by
  unfold commentTokL at h
  cases h1 : matchLit kw l with
  | none => rw [h1] at h; cases h
  | some r1 =>
    simp only [h1] at h
    cases h2 : skipWsL r1 with
    | nil => simp only [h2] at h; cases h
    | cons b r2 =>
      simp only [h2] at h
      split at h
      · cases h3 : matchLit ("comment".data) (skipWsL r2) with
        | none => simp only [h3] at h; cases h
        | some r4 =>
          simp only [h3] at h
          cases h4 : skipWsL r4 with
          | nil => simp only [h4] at h; cases h
          | cons b2 r5 =>
            simp only [h4] at h
            split at h
            · injection h with h
              subst h
              have s1 : r1 <:+ l := matchLit_suffix kw l r1 h1
              have s2 : b :: r2 <:+ r1 := h2 ▸ skipWsL_suffix r1
              have s3 : r2 <:+ r1 := (List.suffix_cons b r2).trans s2
              have s5 : r4 <:+ skipWsL r2 := matchLit_suffix _ _ _ h3
              have s6 : b2 :: r5 <:+ r4 := h4 ▸ skipWsL_suffix r4
              have s7 : r5 <:+ r4 := (List.suffix_cons b2 r5).trans s6
              exact s7.trans ((s5.trans (skipWsL_suffix r2)).trans (s3.trans s1))
            · cases h
      · cases h

lemma findEndComment_suffix : ∀ (fuel : Nat) (l r : List Char),
    findEndComment fuel l = some r → r <:+ l := by
  intro fuel
  induction fuel with
  | zero =>
    intro l r h
    have e : findEndComment 0 l = none := by cases l <;> rfl
    rw [e] at h
    cases h
  | succ m ih =>
    intro l r h
    cases l with
    | nil => simp [findEndComment] at h
    | cons c t =>
      simp only [findEndComment] at h
      cases he : commentTokL ("\\end".data) (c :: t) with
      | some r0 =>
        simp only [he] at h
        injection h with h
        subst h
        exact commentTokL_suffix he
      | none =>
        simp only [he] at h
        exact (ih t r h).trans (List.suffix_cons c t)

/-- Block-comment removal only deletes characters. -/
lemma blockSubAux_subset : ∀ (fuel : Nat) (l : List Char), blockSubAux fuel l ⊆ l := by
  intro fuel
  induction fuel with
  | zero =>
    intro l
    have e : blockSubAux 0 l = l := by cases l <;> rfl
    rw [e]
    exact List.Subset.refl l
  | succ m ih =>
    intro l
    cases l with
    | nil => simp [blockSubAux]
    | cons c t =>
      cases hb : commentTokL ("\\begin".data) (c :: t) with
      | none =>
        have e : blockSubAux (m + 1) (c :: t) = c :: blockSubAux m t := by
          simp only [blockSubAux, hb]
        rw [e]
        exact List.cons_subset_cons c (ih t)
      | some r1 =>
        cases he : findEndComment (r1.length + 1) r1 with
        | none =>
          have e : blockSubAux (m + 1) (c :: t) = c :: blockSubAux m t := by
            simp only [blockSubAux, hb, he]
          rw [e]
          exact List.cons_subset_cons c (ih t)
        | some r2 =>
          have e : blockSubAux (m + 1) (c :: t) = blockSubAux m (skipWsL r2) := by
            simp only [blockSubAux, hb, he]
          rw [e]
          have s1 : r1 <:+ c :: t := commentTokL_suffix hb
          have s2 : r2 <:+ r1 := findEndComment_suffix (r1.length + 1) r1 r2 he
          exact (ih (skipWsL r2)).trans
            (((skipWsL_suffix r2).trans (s2.trans s1)).subset)

lemma stripComments_subset {ch : Char} {content : List Char}
    (h : ch ∈ stripComments content) : ch ∈ content := by
  unfold stripComments blockCommentSub at h
  have h1 : ch ∈ lineCommentSub content := blockSubAux_subset _ _ h
  exact lineSubAux_subset content false none h1

lemma renderPath_no_pct : ∀ (p : MPath),
    (∀ comp ∈ p, '%' ∉ comp.data) → '%' ∉ renderPath p := by
  intro p
  induction p with
  | nil =>
    intro _ hmem
    simp [renderPath] at hmem
  | cons s rest ih =>
    intro hc hmem
    cases rest with
    | nil =>
      simp only [renderPath] at hmem
      exact hc s (List.mem_cons_self _ _) hmem
    | cons s2 r2 =>
      simp only [renderPath] at hmem
      rcases List.mem_append.mp hmem with h1 | h2
      · exact hc s (List.mem_cons_self _ _) h1
      · rcases List.mem_cons.mp h2 with he | h3
        · exact absurd he (by decide)
        · exact ih (fun c hcm => hc c (List.mem_cons_of_mem s hcm)) h3

lemma pathNameOf_no_pct : ∀ (p : MPath),
    (∀ comp ∈ p, '%' ∉ comp.data) → '%' ∉ (pathNameOf p).data := by
  intro p
  induction p with
  | nil => intro _; exact (by decide : '%' ∉ (pathNameOf []).data)
  | cons s rest ih =>
    intro hc
    cases rest with
    | nil =>
      have e : pathNameOf [s] = s := by simp [pathNameOf]
      rw [e]
      exact hc s (List.mem_cons_self _ _)
    | cons s2 r2 =>
      have e : pathNameOf (s :: s2 :: r2) = pathNameOf (s2 :: r2) := by
        simp [pathNameOf, List.getLast?_cons_cons]
      rw [e]
      exact ih (fun c hcm => hc c (List.mem_cons_of_mem s hcm))

lemma texName_no_pct {nm : List Char} (h : '%' ∉ nm) : '%' ∉ texName nm := by
  unfold texName
  split
  · exact h
  · intro hm
    rcases List.mem_append.mp hm with h1 | h2
    · exact h h1
    · exact absurd h2 (by decide)

lemma fsLookup_mem_pair {fs : List (MPath × List Char)} {p : MPath} {c : List Char}
    (h : fsLookup fs p = some c) : (p, c) ∈ fs := by
  induction fs with
  | nil => cases h
  | cons e rest ih =>
    obtain ⟨q, cc⟩ := e
    simp only [fsLookup] at h
    split at h
    · rename_i hq
      injection h with h2
      rw [List.mem_cons]
      left
      rw [hq, h2]
    · exact List.mem_cons_of_mem _ (ih h)

lemma includeTarget_isSome {fs : List (MPath × List Char)} {root curPath : MPath}
    {fname : List Char} {p : MPath}
    (h : includeTarget fs root curPath fname = some p) :
    (fsLookup fs p).isSome = true := by
  simp only [includeTarget] at h
  by_cases h1 : (fsLookup fs (curPath.dropLast ++ [String.mk fname])).isSome = true
  · rw [if_pos h1] at h
    split at h
    · rename_i hcond
      injection h with h
      rw [← h]
      exact hcond
    · rename_i hneg
      exact absurd h1 hneg
  · rw [if_neg h1] at h
    split at h
    · rename_i hcond
      injection h with h
      rw [← h]
      exact hcond
    · cases h

/-- The replacement pass preserves the marker property: its output is the
`%`-free scanned text interleaved with recursively merged contents and
not-found placeholder comments. -/
lemma replaceInputs_markerOk (fs : List (MPath × List Char)) (root : MPath)
    (recur : MPath → List MPath → Option (List Char × List MPath)) (curPath : MPath)
    (hrec : ∀ q w o w', (fsLookup fs q).isSome = true → recur q w = some (o, w') →
      MarkerOk o) :
    ∀ fuel text v out v', '%' ∉ text →
      replaceInputs fs root recur curPath fuel text v = some (out, v') →
      MarkerOk out := by
  intro fuel
  induction fuel with
  | zero => intro text v out v' _ h; simp [replaceInputs] at h
  | succ m ih =>
    intro text v out v' htext h
    cases text with
    | nil =>
      simp only [replaceInputs] at h
      injection h with h1
      have ho : out = [] := (congrArg Prod.fst h1).symm
      rw [ho]
      exact markerOk_of_no_pct (by simp)
    | cons c t =>
      have hc : '%' ∉ t := fun hm2 => htext (List.mem_cons_of_mem c hm2)
      have hch : c ≠ '%' := fun e => htext (e ▸ List.mem_cons_self c t)
      simp only [replaceInputs] at h
      cases hm : matchInputCmd (c :: t) with
      | none =>
        simp only [hm] at h
        cases hrest : replaceInputs fs root recur curPath m t v with
        | none => simp only [hrest] at h; cases h
        | some p =>
          obtain ⟨o2, v2⟩ := p
          simp only [hrest] at h
          injection h with h1
          have ho : out = c :: o2 := (congrArg Prod.fst h1).symm
          rw [ho, show (c :: o2) = [c] ++ o2 from rfl]
          refine markerOk_append (markerOk_of_no_pct ?_) (ih t v o2 v2 hc hrest)
          intro hm2
          exact hch (List.mem_singleton.mp hm2).symm
      | some p =>
        obtain ⟨nm, rest⟩ := p
        have hprops := matchInputCmd_props hm
        have hrfree : '%' ∉ rest := fun hm2 => htext (hprops.1.subset hm2)
        have hnmfree : '%' ∉ nm := fun hm2 => htext (hprops.2.2 _ hm2)
        simp only [hm] at h
        cases htg : includeTarget fs root curPath (texName nm) with
        | some finalP =>
          simp only [htg] at h
          cases hr : recur finalP v with
          | none => simp only [hr] at h; cases h
          | some p2 =>
            obtain ⟨mo, v1⟩ := p2
            simp only [hr] at h
            cases hrest : replaceInputs fs root recur curPath m rest v1 with
            | none => simp only [hrest] at h; cases h
            | some p3 =>
              obtain ⟨o3, v3⟩ := p3
              simp only [hrest] at h
              injection h with h1
              have ho : out = mo ++ o3 := (congrArg Prod.fst h1).symm
              rw [ho]
              exact markerOk_append
                (hrec finalP v mo v1 (includeTarget_isSome htg) hr)
                (ih rest v1 o3 v3 hrfree hrest)
        | none =>
          simp only [htg] at h
          cases hrest : replaceInputs fs root recur curPath m rest v with
          | none => simp only [hrest] at h; cases h
          | some p3 =>
            obtain ⟨o3, v3⟩ := p3
            simp only [hrest] at h
            injection h with h1
            have ho : out = inclNotFoundPlaceholder (texName nm) ++ o3 :=
              (congrArg Prod.fst h1).symm
            rw [ho]
            exact markerOk_append
              (markerOk_inclNotFoundPlaceholder _ (texName_no_pct hnmfree))
              (ih rest v o3 v3 hrfree hrest)

/-- Claim C3 (amended): the merged output need not be free of inclusion
commands or of comment markers — juxtaposition of merged contents can
create a fresh inclusion command, and unresolved includes leave `%`
placeholder comments (see the counterexample). What does hold: when every
project file's content and every path component is free of `%`, every `%`
occurring in a successful merge's output starts one of the merger's own
placeholder comments, being followed by the marker `space,dash,dash,dash,space`. -/
theorem mergeTexFiles_comment_markers (fs : List (MPath × List Char)) (root : MPath)
    (hfs : ∀ e ∈ fs, '%' ∉ e.2 ∧ ∀ comp ∈ e.1, '%' ∉ comp.data) :
    ∀ fuel path v out v', (∀ comp ∈ path, '%' ∉ comp.data) →
      mergeTexFiles fs root fuel path v = some (out, v') → MarkerOk out := by
  intro fuel
  induction fuel with
  | zero => intro path v out v' _ h; simp [mergeTexFiles] at h
  | succ f ih =>
    intro path v out v' hpath h
    simp only [mergeTexFiles] at h
    split at h
    · injection h with h1
      have ho : out = skipPlaceholder path := (congrArg Prod.fst h1).symm
      rw [ho]
      exact markerOk_skipPlaceholder path (pathNameOf_no_pct path hpath)
    · cases hl : fsLookup fs path with
      | none =>
        simp only [hl] at h
        injection h with h1
        have ho : out = notFoundPlaceholder path := (congrArg Prod.fst h1).symm
        rw [ho]
        exact markerOk_notFoundPlaceholder path (renderPath_no_pct path hpath)
      | some content =>
        simp only [hl] at h
        have hcf : '%' ∉ content := (hfs _ (fsLookup_mem_pair hl)).1
        have hsf : '%' ∉ stripComments content := fun hm2 => hcf (stripComments_subset hm2)
        exact replaceInputs_markerOk fs root (mergeTexFiles fs root f) path
          (fun q w o w2 hq hr => by
            obtain ⟨cq, hcq⟩ := Option.isSome_iff_exists.mp hq
            exact ih q w o w2 (hfs _ (fsLookup_mem_pair hcq)).2 hr)
          _ _ _ _ _ hsf h

/-- The `%`-free one-file project (with an unresolvable include) used as
the C3 witness. -/
def c3WFs : List (MPath × List Char) :=
  [([("r.tex" : String)], "hi \\input\x7bm\x7d there".data)]

/-- Witness for C3 on a concrete project: in the merged output
`hi % --- INCLUDED FILE NOT FOUND: m.tex ---\n there`, the `%` occurrence
is followed by the placeholder marker. -/
theorem mergeTexFiles_comment_markers_witness :
    5 ≤ (" --- INCLUDED FILE NOT FOUND: m.tex ---\n there".data : List Char).length ∧
    (" --- INCLUDED FILE NOT FOUND: m.tex ---\n there".data : List Char).take 5 =
      (" --- ".data) :=
  mergeTexFiles_comment_markers c3WFs [] (by decide) 2 [("r.tex" : String)] []
    ("hi % --- INCLUDED FILE NOT FOUND: m.tex ---\n there".data)
    [[("r.tex" : String)]]
    (by decide) (by decide)
    ("hi ".data) (" --- INCLUDED FILE NOT FOUND: m.tex ---\n there".data)
    (by decide)

end LatexClean
